import Mathlib

/-!
Shallow embedding of the sessions-tree extension (`src/extensions/sessions.ts`)
of pi-amplike: the data model, session-header loading, tree building,
flattening with visual prefixes, incremental filtering, and the selector's
input-handling state machine, together with a verification of the documented
properties.

JavaScript built-ins used by the source (stable `Array.prototype.sort`,
`String.prototype.toLowerCase` / `trim` / `includes`, `Array.prototype.join`)
are modelled by the executable Lean functions in the first section below.
-/

/-! ### Models of the JavaScript string and array built-ins -/

/-- Model of `String.prototype.toLowerCase` (character-wise lowering). -/
def lowerStr (s : String) : String := String.mk (s.data.map Char.toLower)

/-- Model of `String.prototype.trim`: drop leading and trailing whitespace. -/
def trimStr (s : String) : String :=
  String.mk (((s.data.dropWhile Char.isWhitespace).reverse.dropWhile Char.isWhitespace).reverse)

/-- Whether `needle` is a leading block of `hay` (character lists). -/
def charsStart : List Char → List Char → Bool
  | [], _ => true
  | _ :: _, [] => false
  | a :: as, b :: bs => a == b && charsStart as bs

/-- Whether `needle` occurs as a contiguous block somewhere in `hay`. -/
def charsIncl (needle hay : List Char) : Bool :=
  charsStart needle hay ||
    match hay with
    | [] => false
    | _ :: t => charsIncl needle t

/-- Model of `String.prototype.includes`: substring containment. -/
def strIncludes (hay needle : String) : Bool := charsIncl needle.data hay.data

/-- Stable insertion of `x` into `l`: `x` goes before the first element `y`
with `le x y`, hence before any element tied with `x`. -/
def insertLe (le : α → α → Bool) (x : α) : List α → List α
  | [] => [x]
  | y :: ys => if le x y then x :: y :: ys else y :: insertLe le x ys

/-- Model of the (stable, ES2019+) `Array.prototype.sort` with a comparator
inducing the total preorder `le`: stable insertion sort. -/
def sortLe (le : α → α → Bool) : List α → List α
  | [] => []
  | x :: xs => insertLe le x (sortLe le xs)

theorem insertLe_perm (le : α → α → Bool) (x : α) (l : List α) :
    (insertLe le x l).Perm (x :: l) := by
  induction l with
  | nil => exact List.Perm.refl _
  | cons y ys ih =>
    by_cases h : le x y = true
    · simp [insertLe, h]
    · simp only [insertLe, h]
      rw [if_neg (by simp [h])]
      exact (List.Perm.cons y ih).trans (List.Perm.swap x y ys)

theorem sortLe_perm (le : α → α → Bool) (l : List α) : (sortLe le l).Perm l := by
  induction l with
  | nil => exact List.Perm.refl _
  | cons x xs ih =>
    exact (insertLe_perm le x (sortLe le xs)).trans (List.Perm.cons x ih)

theorem insertLe_pairwise (le : α → α → Bool)
    (htr : ∀ a b c, le a b = true → le b c = true → le a c = true)
    (hto : ∀ a b, le a b = false → le b a = true)
    (x : α) (l : List α) (hl : l.Pairwise (fun a b => le a b = true)) :
    (insertLe le x l).Pairwise (fun a b => le a b = true) := by
  induction l with
  | nil => simp [insertLe]
  | cons y ys ih =>
    rcases List.pairwise_cons.mp hl with ⟨hy, hys⟩
    by_cases h : le x y = true
    · simp only [insertLe, if_pos h]
      refine List.pairwise_cons.mpr ⟨?_, hl⟩
      intro z hz
      rcases List.mem_cons.mp hz with rfl | hz
      · exact h
      · exact htr _ _ _ h (hy z hz)
    · simp only [insertLe, if_neg h]
      refine List.pairwise_cons.mpr ⟨?_, ih hys⟩
      intro z hz
      have hz' := (insertLe_perm le x ys).mem_iff.mp hz
      rcases List.mem_cons.mp hz' with rfl | hz'
      · exact hto _ _ (by simpa using h)
      · exact hy z hz'

theorem sortLe_pairwise (le : α → α → Bool)
    (htr : ∀ a b c, le a b = true → le b c = true → le a c = true)
    (hto : ∀ a b, le a b = false → le b a = true) (l : List α) :
    (sortLe le l).Pairwise (fun a b => le a b = true) := by
  induction l with
  | nil => simp [sortLe]
  | cons x xs ih => exact insertLe_pairwise le htr hto x _ ih

theorem sortLe_nodup (le : α → α → Bool) {l : List α} (h : l.Nodup) :
    (sortLe le l).Nodup :=
  ((sortLe_perm le l).symm.nodup h)

theorem mem_sortLe (le : α → α → Bool) {l : List α} {x : α} :
    x ∈ sortLe le l ↔ x ∈ l := (sortLe_perm le l).mem_iff

/-! ### Data model (`SessionInfo`, `SessionWithParent`, tree and flat nodes) -/

/-- The externally supplied session summary (`SessionInfo` from the host).
`created` and `modified` are `Date.getTime()` values in milliseconds. -/
structure SessionInfo where
  path : String
  name : Option String
  firstMessage : Option String
  cwd : String
  created : Int
  modified : Int
deriving Repr, DecidableEq

/-- `interface SessionWithParent extends SessionInfo` with the optional
`parentSession` path. -/
structure SessionWithParent extends SessionInfo where
  parentSession : Option String
deriving Repr, DecidableEq

/-- `interface SessionTreeNode` (recursive, so an inductive here). -/
inductive SessionTreeNode where
  | mk (session : SessionWithParent) (children : List SessionTreeNode) (depth : Nat)

def SessionTreeNode.session : SessionTreeNode → SessionWithParent
  | .mk s _ _ => s

def SessionTreeNode.children : SessionTreeNode → List SessionTreeNode
  | .mk _ cs _ => cs

def SessionTreeNode.nodeDepth : SessionTreeNode → Nat
  | .mk _ _ d => d

/-- `interface FlatNode` produced by `flattenTree`. The `prefix` field of the
source is called `pfx` here (`prefix` is reserved in Lean). -/
structure FlatNode where
  session : SessionWithParent
  depth : Nat
  pfx : String
  isLast : Bool
  hasChildren : Bool
deriving Repr, DecidableEq

/-! ### `buildSessionTree` -/

def sessionPaths (sessions : List SessionWithParent) : List String :=
  sessions.map (fun s => s.path)

/-- The root test of `buildSessionTree`: the branch
`session.parentSession && byPath.has(session.parentSession)` is taken, i.e.
the parent reference is present, truthy (non-empty) and indexed. -/
def isResolvedChild (sessions : List SessionWithParent) (s : SessionWithParent) : Bool :=
  match s.parentSession with
  | none => false
  | some p => !p.isEmpty && (sessionPaths sessions).contains p

/-- Contents of the `childrenOf` bucket for key `p`: the sessions pushed into
it by the first pass of `buildSessionTree`, in input order. -/
def childrenOf (sessions : List SessionWithParent) (p : String) : List SessionWithParent :=
  sessions.filter (fun s => isResolvedChild sessions s && s.parentSession == some p)

/-- Comparator `(a, b) => b.modified.getTime() - a.modified.getTime()`. -/
def leModifiedDesc (a b : SessionWithParent) : Bool := decide (b.modified ≤ a.modified)

/-- Comparator `(a, b) => a.created.getTime() - b.created.getTime()`. -/
def leCreatedAsc (a b : SessionWithParent) : Bool := decide (a.created ≤ b.created)

/-- The recursive `buildNode` of the source. The source recurses on
dynamically discovered children; here the recursion carries explicit fuel.
`buildSessionTree` passes fuel `sessions.length`, which (for duplicate-free
paths) is proved sufficient for every node reachable from a root, so the
fuel-exhaustion leaf is never taken there. -/
def buildNode (sessions : List SessionWithParent) : Nat → SessionWithParent → Nat → SessionTreeNode
  | 0, s, depth => SessionTreeNode.mk s [] depth
  | fuel + 1, s, depth =>
    let children := sortLe leCreatedAsc (childrenOf sessions s.path)
    SessionTreeNode.mk s (children.map (fun c => buildNode sessions fuel c (depth + 1))) depth

/-- `buildSessionTree`: index, split into roots and children buckets, sort
roots by `modified` descending, then materialize each root recursively. -/
def buildSessionTree (sessions : List SessionWithParent) : List SessionTreeNode :=
  let roots := sessions.filter (fun s => !isResolvedChild sessions s)
  (sortLe leModifiedDesc roots).map (fun r => buildNode sessions sessions.length r 0)

/-! ### `flattenTree` -/

mutual
/-- The inner `flatten(node, depth, parentPrefixes, isLast)` of `flattenTree`. -/
def flattenNode : SessionTreeNode → Nat → List String → Bool → List FlatNode
  | SessionTreeNode.mk sess children _d, depth, parentPrefixes, isLast =>
    { session := sess, depth := depth,
      pfx :=
        if depth > 0 then
          String.join parentPrefixes ++ (if isLast then "└─ " else "├─ ")
        else "",
      isLast := isLast, hasChildren := decide (children.length > 0) } ::
      flattenChildren children 0 children.length (depth + 1)
        (if depth > 0 then parentPrefixes ++ [if isLast then "   " else "│  "] else parentPrefixes)

/-- The `forEach((child, i) => ...)` loop over a children array: `i` is the
current index, `total` the array length. -/
def flattenChildren : List SessionTreeNode → Nat → Nat → Nat → List String → List FlatNode
  | [], _, _, _, _ => []
  | c :: rest, i, total, depth, pp =>
    flattenNode c depth pp (i == total - 1) ++ flattenChildren rest (i + 1) total depth pp
end

/-- `flattenTree(roots)`: the `roots.forEach((root, i) => flatten(root, 0, [], i === roots.length - 1))` loop. -/
def flattenTree (roots : List SessionTreeNode) : List FlatNode :=
  flattenChildren roots 0 roots.length 0 []

/-! ### The incremental filter (`SessionTreeSelector.applyFilter`) -/

/-- The match target built inside `applyFilter`:
`[firstMessage, name, cwd, path].filter(Boolean).join(" ").toLowerCase()`.
`filter(Boolean)` drops both absent and empty fields. -/
def matchText (n : FlatNode) : String :=
  lowerStr (String.intercalate " "
    (([n.session.firstMessage, n.session.name, some n.session.cwd,
        some n.session.path].filterMap id).filter (fun s => !s.isEmpty)))

/-- The query normalization `searchInput.getValue().toLowerCase().trim()`. -/
def normalizeQuery (raw : String) : String := trimStr (lowerStr raw)

/-- The per-node predicate `text.includes(query)` for a normalized query. -/
def nodeMatches (q : String) (n : FlatNode) : Bool := strIncludes (matchText n) q

/-- The list computation of `applyFilter` (from raw query to filtered list). -/
def applyFilterList (l : List FlatNode) (rawQuery : String) : List FlatNode :=
  let q := normalizeQuery rawQuery
  if q.isEmpty then l else l.filter (fun n => nodeMatches q n)

/-! ### The selector state machine -/

/-- `ensureVisible` on the scroll offset (selection, old offset, window size). -/
def ensureVisible (sel off m : Int) : Int :=
  if sel < off then sel
  else if off + m ≤ sel then sel - m + 1
  else off

/-- Mutable state of `SessionTreeSelector` relevant to input handling. -/
structure SelectorState where
  flatNodes : List FlatNode
  query : String
  filteredNodes : List FlatNode
  selectedIndex : Int
  scrollOffset : Int
  maxVisibleLines : Int
  searchMode : Bool
deriving Repr, DecidableEq

/-- `this.ensureVisible()` as a state update. -/
def ensureVisibleS (s : SelectorState) : SelectorState :=
  { s with scrollOffset := ensureVisible s.selectedIndex s.scrollOffset s.maxVisibleLines }

/-- `this.applyFilter()`: recompute `filteredNodes` from `flatNodes` and the
query, clamp the selection, reset the scroll offset, ensure visibility. -/
def applyFilterS (s : SelectorState) : SelectorState :=
  let filtered := applyFilterList s.flatNodes s.query
  ensureVisibleS { s with
    filteredNodes := filtered,
    selectedIndex := min s.selectedIndex (max 0 ((filtered.length : Int) - 1)),
    scrollOffset := 0 }

/-- The constructor of `SessionTreeSelector`. -/
def mkSelector (roots : List SessionTreeNode) (maxVisibleLines : Int)
    (currentSessionPath : Option String) : SelectorState :=
  let flat := flattenTree roots
  let base : SelectorState :=
    { flatNodes := flat, query := "", filteredNodes := flat,
      selectedIndex := 0, scrollOffset := 0,
      maxVisibleLines := maxVisibleLines, searchMode := false }
  match currentSessionPath with
  | none => base
  | some cp =>
    match flat.findIdx? (fun n => n.session.path == cp) with
    | some idx => ensureVisibleS { base with selectedIndex := (idx : Int) }
    | none => base

/-- Abstract key events, as distinguished by the `matchesKey` dispatch in
`handleInput` (browsing mode). `other` stands for data matching none of the
tested keys. -/
inductive KeyIn where
  | up
  | down
  | pageUp
  | pageDown
  | home
  | endKey
  | enter
  | escape
  | slash
  | other
deriving Repr, DecidableEq

/-- `handleInput` in browsing mode (`searchMode = false`). `enter` and
`escape` only fire the outcome callbacks and leave the state unchanged. -/
def handleBrowse (s : SelectorState) (k : KeyIn) : SelectorState :=
  match k with
  | .up =>
    if s.selectedIndex > 0 then ensureVisibleS { s with selectedIndex := s.selectedIndex - 1 }
    else s
  | .down =>
    if s.selectedIndex < (s.filteredNodes.length : Int) - 1 then
      ensureVisibleS { s with selectedIndex := s.selectedIndex + 1 }
    else s
  | .pageUp =>
    ensureVisibleS { s with selectedIndex := max 0 (s.selectedIndex - s.maxVisibleLines) }
  | .pageDown =>
    ensureVisibleS { s with
      selectedIndex := min ((s.filteredNodes.length : Int) - 1) (s.selectedIndex + s.maxVisibleLines) }
  | .home => ensureVisibleS { s with selectedIndex := 0 }
  | .endKey => ensureVisibleS { s with selectedIndex := (s.filteredNodes.length : Int) - 1 }
  | .enter => s
  | .escape => s
  | .slash => { s with searchMode := true }
  | .other => s

/-- `handleInput` in search mode (`searchMode = true`). Any key other than
escape/enter is routed to the text input, whose new value is `newQuery`
(the `Input` widget is an external component), then the filter is re-run. -/
def handleSearch (s : SelectorState) (k : KeyIn) (newQuery : String) : SelectorState :=
  match k with
  | .escape => applyFilterS { s with searchMode := false, query := "" }
  | .enter => { s with searchMode := false }
  | _ => applyFilterS { s with query := newQuery }

/-- One `handleInput` call, as a relation (the new query typed while in
search mode is chosen by the environment). -/
inductive SelStep : SelectorState → SelectorState → Prop where
  | browse (s : SelectorState) (k : KeyIn) (h : s.searchMode = false) :
      SelStep s (handleBrowse s k)
  | search (s : SelectorState) (k : KeyIn) (newQuery : String) (h : s.searchMode = true) :
      SelStep s (handleSearch s k newQuery)

/-! ### Header loading (`getSessionHeader`, `loadSessionsWithParents`) -/

/-- The parsed first line of a session file, as consumed by
`getSessionHeader` (`header.type` is spelled `typ`). -/
structure SessionHeader where
  typ : String
  parentSession : Option String
deriving Repr, DecidableEq

/-- Observable behaviour of the streaming read: either the first line is
delivered, or an error event fires, or the stream ends without either
(a zero-byte file). -/
inductive HeaderReadEvent where
  | lineDelivered (line : String)
  | readFailed
  | endedNoLine
deriving Repr, DecidableEq

/-- `getSessionHeader`: the outer `Option` is promise settlement (`some r` =
the promise resolves with `r`; `none` = no handler ever calls `resolve`, the
promise stays pending). `JSON.parse` is abstracted by `parseLine` (`none` =
the parse throws, caught by the `try`/`catch`). -/
def getSessionHeader (parseLine : String → Option SessionHeader) :
    HeaderReadEvent → Option (Option (Option String))
  | .lineDelivered l =>
    some (match parseLine l with
      | none => none
      | some h => if h.typ = "session" then some h.parentSession else none)
  | .readFailed => some none
  | .endedNoLine => none

/-- The loop body of `loadSessionsWithParents`: `headerOf` gives the value
each `getSessionHeader` call resolves with; returns the result list and the
`(loaded, total)` notifications in emission order. -/
def loadLoop (headerOf : SessionInfo → Option (Option String)) (total : Nat) :
    List SessionInfo → Nat → List SessionWithParent × List (Nat × Nat)
  | [], _ => ([], [])
  | s :: rest, loaded =>
    let hdr := headerOf s
    let res := loadLoop headerOf total rest (loaded + 1)
    ({ toSessionInfo := s,
        parentSession := match hdr with | none => none | some p => p } :: res.1,
      (loaded + 1, total) :: res.2)

/-- `loadSessionsWithParents(sessions, onProgress)`. -/
def loadSessionsWithParents (headerOf : SessionInfo → Option (Option String))
    (sessions : List SessionInfo) : List SessionWithParent × List (Nat × Nat) :=
  loadLoop headerOf sessions.length sessions 0

/-! ### Forest contents and the parent relation -/

mutual
/-- All sessions in a subtree, in pre-order. -/
def sessionsOf : SessionTreeNode → List SessionWithParent
  | .mk s cs _ => s :: sessionsOfList cs

def sessionsOfList : List SessionTreeNode → List SessionWithParent
  | [] => []
  | t :: ts => sessionsOf t ++ sessionsOfList ts
end

mutual
/-- All nodes of a subtree, in pre-order. -/
def nodesOf : SessionTreeNode → List SessionTreeNode
  | .mk s cs d => SessionTreeNode.mk s cs d :: nodesOfList cs

def nodesOfList : List SessionTreeNode → List SessionTreeNode
  | [] => []
  | t :: ts => nodesOf t ++ nodesOfList ts
end

/-- Sessions of the whole built forest. -/
def forestSessions (sessions : List SessionWithParent) : List SessionWithParent :=
  sessionsOfList (buildSessionTree sessions)

/-- `c` is registered as a child of `p` by the first pass of
`buildSessionTree`. -/
def IsChildOf (sessions : List SessionWithParent) (c p : SessionWithParent) : Prop :=
  c ∈ sessions ∧ isResolvedChild sessions c = true ∧ c.parentSession = some p.path

/-- Reflexive-transitive closure of the child relation: `AncStar sessions s t`
says `s` is `t` or a (registered) ancestor of `t`. -/
inductive AncStar (sessions : List SessionWithParent) : SessionWithParent → SessionWithParent → Prop where
  | refl (s : SessionWithParent) : AncStar sessions s s
  | step {s p c : SessionWithParent} : AncStar sessions s p → p ∈ sessions →
      IsChildOf sessions c p → AncStar sessions s c

/-- A chain of parent links from a session (the head) up to a session with no
resolved parent (the last element). -/
inductive RootChain (sessions : List SessionWithParent) : List SessionWithParent → Prop where
  | single {r : SessionWithParent} : r ∈ sessions → isResolvedChild sessions r = false →
      RootChain sessions [r]
  | cons {c p : SessionWithParent} {rest : List SessionWithParent} :
      IsChildOf sessions c p → RootChain sessions (p :: rest) →
      RootChain sessions (c :: p :: rest)

/-- The session a resolved parent reference points at (first match; unique
when paths are duplicate-free). -/
def parentIn (sessions : List SessionWithParent) (s : SessionWithParent) : Option SessionWithParent :=
  match s.parentSession with
  | none => none
  | some p => if p.isEmpty then none else sessions.find? (fun t => t.path == p)

/-- Decidable root-reachability: following parent references from `s` for at
most `f` steps reaches a session with no resolved parent. -/
def chainToRootB (sessions : List SessionWithParent) : Nat → SessionWithParent → Bool
  | 0, s => !isResolvedChild sessions s
  | f + 1, s =>
    if isResolvedChild sessions s then
      match parentIn sessions s with
      | some p => chainToRootB sessions f p
      | none => false
    else true

/-! ### Basic lemmas about the parent relation -/

theorem sessionsOfList_eq_flatMap (ts : List SessionTreeNode) :
    sessionsOfList ts = ts.flatMap sessionsOf := by
  induction ts with
  | nil => rfl
  | cons t ts ih => simp [sessionsOfList, ih]

theorem nodesOfList_eq_flatMap (ts : List SessionTreeNode) :
    nodesOfList ts = ts.flatMap nodesOf := by
  induction ts with
  | nil => rfl
  | cons t ts ih => simp [nodesOfList, ih]

theorem buildNode_session (sessions : List SessionWithParent) (f : Nat)
    (s : SessionWithParent) (d : Nat) : (buildNode sessions f s d).session = s := by
  cases f <;> rfl

theorem mem_childrenOf {sessions : List SessionWithParent} {p : String} {c : SessionWithParent} :
    c ∈ childrenOf sessions p ↔
      c ∈ sessions ∧ isResolvedChild sessions c = true ∧ c.parentSession = some p := by
  simp only [childrenOf, List.mem_filter, Bool.and_eq_true, beq_iff_eq, and_assoc]

theorem isChildOf_iff {sessions : List SessionWithParent} {c p : SessionWithParent} :
    IsChildOf sessions c p ↔ c ∈ childrenOf sessions p.path := by
  rw [mem_childrenOf]; rfl

theorem path_inj {sessions : List SessionWithParent}
    (hnd : (sessionPaths sessions).Nodup) {a b : SessionWithParent}
    (ha : a ∈ sessions) (hb : b ∈ sessions) (h : a.path = b.path) : a = b :=
  List.inj_on_of_nodup_map hnd ha hb h

theorem parent_unique {sessions : List SessionWithParent}
    (hnd : (sessionPaths sessions).Nodup) {c p q : SessionWithParent}
    (hp : IsChildOf sessions c p) (hpm : p ∈ sessions)
    (hq : IsChildOf sessions c q) (hqm : q ∈ sessions) : p = q := by
  have : some p.path = some q.path := hp.2.2 ▸ hq.2.2
  exact path_inj hnd hpm hqm (Option.some_injective _ this)

theorem rootChain_mem {sessions : List SessionWithParent} {l : List SessionWithParent}
    (h : RootChain sessions l) : ∀ x ∈ l, x ∈ sessions := by
  induction h with
  | single hr _ => intro x hx; rcases List.mem_singleton.mp hx with rfl; assumption
  | cons hc _ ih =>
    intro x hx
    rcases List.mem_cons.mp hx with rfl | hx
    · exact hc.1
    · exact ih x hx

theorem rootChain_head_mem {sessions : List SessionWithParent} {s : SessionWithParent}
    {anc : List SessionWithParent} (h : RootChain sessions (s :: anc)) : s ∈ sessions :=
  rootChain_mem h s (List.mem_cons_self _ _)

theorem rootChain_tail {sessions : List SessionWithParent} {a : SessionWithParent}
    {rest : List SessionWithParent} (h : RootChain sessions (a :: rest)) (hne : rest ≠ []) :
    RootChain sessions rest := by
  cases h with
  | single _ _ => exact absurd rfl hne
  | cons _ htail => exact htail

theorem rootChain_suffix {sessions : List SessionWithParent} :
    ∀ (pre l : List SessionWithParent), RootChain sessions (pre ++ l) → l ≠ [] →
      RootChain sessions l := by
  intro pre
  induction pre with
  | nil => intro l h _; exact h
  | cons a pre ih =>
    intro l h hne
    have h' : RootChain sessions (pre ++ l) := by
      refine rootChain_tail h ?_
      intro hnil
      rcases List.append_eq_nil.mp hnil with ⟨_, rfl⟩
      exact hne rfl
    exact ih l h' hne

theorem rootChain_resolved_cons {sessions : List SessionWithParent} {c : SessionWithParent}
    {anc : List SessionWithParent} (h : RootChain sessions (c :: anc))
    (hres : isResolvedChild sessions c = true) :
    ∃ p rest, anc = p :: rest ∧ IsChildOf sessions c p ∧ RootChain sessions (p :: rest) := by
  cases h with
  | single _ hroot => rw [hres] at hroot; cases hroot
  | cons hc htail => exact ⟨_, _, rfl, hc, htail⟩

theorem rootChain_nodup {sessions : List SessionWithParent}
    (hnd : (sessionPaths sessions).Nodup) {l : List SessionWithParent}
    (h : RootChain sessions l) : l.Nodup := by
  induction h with
  | single hr hroot => simp
  | cons hc htail ih =>
    rename_i c p rest
    refine List.nodup_cons.mpr ⟨?_, ih⟩
    intro hmem
    rcases List.append_of_mem hmem with ⟨pre, suf, hsplit⟩
    have hsuf : RootChain sessions (c :: suf) := by
      refine rootChain_suffix pre (c :: suf) ?_ (by simp)
      rw [← hsplit]; exact htail
    rcases rootChain_resolved_cons hsuf hc.2.1 with ⟨q, rest2, hq, hcq, hq2⟩
    have hqp : q = p := parent_unique hnd hcq (rootChain_head_mem hq2) hc (rootChain_head_mem htail)
    subst hqp
    cases pre with
    | nil =>
      simp only [List.nil_append, List.cons.injEq] at hsplit
      obtain ⟨hpc, hrest⟩ := hsplit
      have : q ∈ rest := by rw [hrest, hq]; exact List.mem_cons_self _ _
      exact (List.nodup_cons.mp ih).1 this
    | cons p0 pre2 =>
      simp only [List.cons_append, List.cons.injEq] at hsplit
      obtain ⟨hp0, hrest⟩ := hsplit
      have : q ∈ rest := by
        rw [hrest, hq]
        exact List.mem_append_right _ (List.mem_cons_of_mem _ (List.mem_cons_self _ _))
      exact (List.nodup_cons.mp ih).1 this

theorem rootChain_length {sessions : List SessionWithParent}
    (hnd : (sessionPaths sessions).Nodup) {l : List SessionWithParent}
    (h : RootChain sessions l) : l.length ≤ sessions.length :=
  ((rootChain_nodup hnd h).subperm (rootChain_mem h)).length_le

theorem ancStar_trans {sessions : List SessionWithParent} {a b c : SessionWithParent}
    (h1 : AncStar sessions a b) (h2 : AncStar sessions b c) : AncStar sessions a c := by
  induction h2 with
  | refl => exact h1
  | step hp hpm hc ih => exact AncStar.step ih hpm hc

theorem ancStar_cases {sessions : List SessionWithParent} {s t : SessionWithParent}
    (h : AncStar sessions s t) :
    t = s ∨ ∃ c, IsChildOf sessions c s ∧ AncStar sessions c t := by
  induction h with
  | refl => exact Or.inl rfl
  | step hp hpm hc ih =>
    rename_i p c
    rcases ih with rfl | ⟨c1, h1, h2⟩
    · exact Or.inr ⟨c, hc, AncStar.refl c⟩
    · exact Or.inr ⟨c1, h1, AncStar.step h2 hpm hc⟩

theorem ancStar_parent {sessions : List SessionWithParent} {a t : SessionWithParent}
    (h : AncStar sessions a t) (hne : t ≠ a) :
    ∃ p, p ∈ sessions ∧ IsChildOf sessions t p ∧ AncStar sessions a p := by
  cases h with
  | refl => exact absurd rfl hne
  | step hp hpm hc => exact ⟨_, hpm, hc, hp⟩

theorem ancStar_mem_chain {sessions : List SessionWithParent}
    (hnd : (sessionPaths sessions).Nodup) {t s : SessionWithParent}
    (h : AncStar sessions t s) :
    ∀ anc, RootChain sessions (s :: anc) → t ∈ s :: anc := by
  induction h with
  | refl => intro anc _; exact List.mem_cons_self _ _
  | step hp hpm hc ih =>
    rename_i p c
    intro anc hchain
    rcases rootChain_resolved_cons hchain hc.2.1 with ⟨q, rest, hq, hcq, hq2⟩
    have hqp : q = p := parent_unique hnd hcq (rootChain_head_mem hq2) hc hpm
    subst hqp
    have := ih rest hq2
    rw [hq]
    exact List.mem_cons_of_mem _ this

theorem chain_no_child_mem {sessions : List SessionWithParent}
    (hnd : (sessionPaths sessions).Nodup) {s c : SessionWithParent}
    {anc : List SessionWithParent} (hchain : RootChain sessions (s :: anc))
    (hc : IsChildOf sessions c s) : c ∉ s :: anc := by
  intro hmem
  rcases List.append_of_mem hmem with ⟨pre, suf, hsplit⟩
  have hsuf : RootChain sessions (c :: suf) := by
    refine rootChain_suffix pre (c :: suf) ?_ (by simp)
    rw [← hsplit]; exact hchain
  rcases rootChain_resolved_cons hsuf hc.2.1 with ⟨q, rest2, hq, hcq, hq2⟩
  have hqs : q = s := parent_unique hnd hcq (rootChain_head_mem hq2) hc (rootChain_head_mem hchain)
  subst hqs
  have hnodup := rootChain_nodup hnd hchain
  cases pre with
  | nil =>
    simp only [List.nil_append, List.cons.injEq] at hsplit
    obtain ⟨hsc, hanc⟩ := hsplit
    have : q ∈ anc := by rw [hanc, hq]; exact List.mem_cons_self _ _
    exact (List.nodup_cons.mp hnodup).1 this
  | cons p0 pre2 =>
    simp only [List.cons_append, List.cons.injEq] at hsplit
    obtain ⟨hs0, hanc⟩ := hsplit
    have : q ∈ anc := by
      rw [hanc, hq]
      exact List.mem_append_right _ (List.mem_cons_of_mem _ (List.mem_cons_self _ _))
    exact (List.nodup_cons.mp hnodup).1 this

theorem ancStar_linear {sessions : List SessionWithParent}
    (hnd : (sessionPaths sessions).Nodup) {a b t : SessionWithParent}
    (ha : AncStar sessions a t) (hb : AncStar sessions b t) :
    AncStar sessions a b ∨ AncStar sessions b a := by
  induction ha with
  | refl => exact Or.inr hb
  | step hap hpm hc ih =>
    rename_i p c
    by_cases hbc : c = b
    · subst hbc
      exact Or.inl (AncStar.step hap hpm hc)
    · rcases ancStar_parent hb hbc with ⟨q, hqm, hcq, hbq⟩
      have hqp : q = p := parent_unique hnd hcq hqm hc hpm
      subst hqp
      exact ih hbq

theorem rootChain_extend {sessions : List SessionWithParent} {r s : SessionWithParent}
    (h : AncStar sessions r s) :
    ∀ anc, RootChain sessions (r :: anc) → ∃ anc2, RootChain sessions (s :: anc2) := by
  induction h with
  | refl => intro anc hc; exact ⟨anc, hc⟩
  | step hp hpm hc ih =>
    intro anc hchain
    rcases ih anc hchain with ⟨anc2, h2⟩
    exact ⟨_, RootChain.cons hc h2⟩

theorem rootChain_to_root {sessions : List SessionWithParent} {l : List SessionWithParent}
    (h : RootChain sessions l) :
    ∃ r, r ∈ sessions ∧ isResolvedChild sessions r = false ∧
      ∀ s anc, l = s :: anc → AncStar sessions r s := by
  induction h with
  | single hr hroot =>
    rename_i r
    refine ⟨r, hr, hroot, ?_⟩
    intro s anc heq
    rw [List.cons.injEq] at heq
    rw [← heq.1]
    exact AncStar.refl r
  | cons hc htail ih =>
    rename_i c p rest
    rcases ih with ⟨r, hrm, hroot, hsp⟩
    refine ⟨r, hrm, hroot, ?_⟩
    intro s anc heq
    rw [List.cons.injEq] at heq
    rw [← heq.1]
    exact AncStar.step (hsp p rest rfl) (rootChain_head_mem htail) hc

/-! ### The subtree built for a session: contents characterized -/

theorem sessions_nodup {sessions : List SessionWithParent}
    (hnd : (sessionPaths sessions).Nodup) : sessions.Nodup :=
  List.Nodup.of_map _ hnd

theorem childrenOf_nodup {sessions : List SessionWithParent}
    (hnd : (sessionPaths sessions).Nodup) (p : String) : (childrenOf sessions p).Nodup :=
  (sessions_nodup hnd).filter _

theorem sessionsOf_buildNode_succ (sessions : List SessionWithParent)
    (f : Nat) (s : SessionWithParent) (d : Nat) :
    sessionsOf (buildNode sessions (f + 1) s d) =
      s :: (sortLe leCreatedAsc (childrenOf sessions s.path)).flatMap
        (fun c => sessionsOf (buildNode sessions f c (d + 1))) := by
  simp [buildNode, sessionsOf, sessionsOfList_eq_flatMap, List.flatMap_map]

theorem child_ancStar_child_false {sessions : List SessionWithParent}
    (hnd : (sessionPaths sessions).Nodup) {s a b : SessionWithParent}
    {anc : List SessionWithParent} (hchain : RootChain sessions (s :: anc))
    (ha : IsChildOf sessions a s) (hb : IsChildOf sessions b s)
    (hne : b ≠ a) (hab : AncStar sessions a b) : False := by
  rcases ancStar_parent hab hne with ⟨q, hqm, hbq, haq⟩
  have hqs : q = s := parent_unique hnd hbq hqm hb (rootChain_head_mem hchain)
  subst hqs
  exact chain_no_child_mem hnd hchain ha (ancStar_mem_chain hnd haq anc hchain)

theorem sibling_anc_false {sessions : List SessionWithParent}
    (hnd : (sessionPaths sessions).Nodup) {s a b t : SessionWithParent}
    {anc : List SessionWithParent} (hchain : RootChain sessions (s :: anc))
    (ha : IsChildOf sessions a s) (hb : IsChildOf sessions b s) (hne : a ≠ b)
    (hat : AncStar sessions a t) (hbt : AncStar sessions b t) : False := by
  rcases ancStar_linear hnd hat hbt with hab | hba
  · exact child_ancStar_child_false hnd hchain ha hb (Ne.symm hne) hab
  · exact child_ancStar_child_false hnd hchain hb ha hne hba

theorem buildNode_spec {sessions : List SessionWithParent}
    (hnd : (sessionPaths sessions).Nodup) :
    ∀ (f : Nat) (s : SessionWithParent) (anc : List SessionWithParent) (d : Nat),
      RootChain sessions (s :: anc) →
      sessions.length + 1 ≤ f + (s :: anc).length →
      (sessionsOf (buildNode sessions f s d)).Nodup ∧
      (∀ t ∈ sessionsOf (buildNode sessions f s d), t ∈ sessions ∧ AncStar sessions s t) ∧
      (∀ t ∈ sessions, AncStar sessions s t → t ∈ sessionsOf (buildNode sessions f s d)) := by
  intro f
  induction f with
  | zero =>
    intro s anc d hchain hfuel
    exfalso
    have hlen := rootChain_length hnd hchain
    simp only [List.length_cons, Nat.zero_add] at hfuel hlen
    omega
  | succ f ih =>
    intro s anc d hchain hfuel
    have hsmem : s ∈ sessions := rootChain_head_mem hchain
    have hmemB : ∀ c, c ∈ sortLe leCreatedAsc (childrenOf sessions s.path) ↔
        IsChildOf sessions c s :=
      fun c => (mem_sortLe _).trans isChildOf_iff.symm
    have hsub : ∀ c ∈ sortLe leCreatedAsc (childrenOf sessions s.path),
        (sessionsOf (buildNode sessions f c (d + 1))).Nodup ∧
        (∀ t ∈ sessionsOf (buildNode sessions f c (d + 1)),
          t ∈ sessions ∧ AncStar sessions c t) ∧
        (∀ t ∈ sessions, AncStar sessions c t →
          t ∈ sessionsOf (buildNode sessions f c (d + 1))) := by
      intro c hc
      refine ih c (s :: anc) (d + 1) (RootChain.cons ((hmemB c).mp hc) hchain) ?_
      simp only [List.length_cons] at hfuel ⊢
      omega
    have hstep : ∀ c, IsChildOf sessions c s → AncStar sessions s c :=
      fun c hc => AncStar.step (AncStar.refl s) hsmem hc
    rw [sessionsOf_buildNode_succ]
    refine ⟨?_, ?_, ?_⟩
    · refine List.nodup_cons.mpr ⟨?_, ?_⟩
      · intro hmem
        rcases List.mem_flatMap.mp hmem with ⟨c, hcB, hsc⟩
        have hcs : AncStar sessions c s := ((hsub c hcB).2.1 s hsc).2
        exact chain_no_child_mem hnd hchain ((hmemB c).mp hcB)
          (ancStar_mem_chain hnd hcs anc hchain)
      · refine List.nodup_flatMap.mpr ⟨fun c hc => (hsub c hc).1, ?_⟩
        have hBnodup : (sortLe leCreatedAsc (childrenOf sessions s.path)).Nodup :=
          sortLe_nodup _ (childrenOf_nodup hnd _)
        refine List.Pairwise.imp_of_mem ?_ hBnodup
        intro a b haB hbB hne t hta htb
        exact sibling_anc_false hnd hchain ((hmemB a).mp haB) ((hmemB b).mp hbB) hne
          (((hsub a haB).2.1 t hta).2) (((hsub b hbB).2.1 t htb).2)
    · intro t ht
      rcases List.mem_cons.mp ht with rfl | ht
      · exact ⟨hsmem, AncStar.refl t⟩
      · rcases List.mem_flatMap.mp ht with ⟨c, hcB, htc⟩
        rcases (hsub c hcB).2.1 t htc with ⟨htm, hct⟩
        exact ⟨htm, ancStar_trans (hstep c ((hmemB c).mp hcB)) hct⟩
    · intro t htm hanc
      rcases ancStar_cases hanc with rfl | ⟨c, hcs, hct⟩
      · exact List.mem_cons_self _ _
      · have hcB := (hmemB c).mpr hcs
        exact List.mem_cons_of_mem _
          (List.mem_flatMap.mpr ⟨c, hcB, (hsub c hcB).2.2 t htm hct⟩)

/-! ### From the decidable reachability check to chains, and back -/

theorem isResolvedChild_iff {sessions : List SessionWithParent} {s : SessionWithParent} :
    isResolvedChild sessions s = true ↔
      ∃ p, s.parentSession = some p ∧ p.isEmpty = false ∧ p ∈ sessionPaths sessions := by
  cases hp : s.parentSession with
  | none => simp [isResolvedChild, hp]
  | some p => simp [isResolvedChild, hp, List.contains]

theorem parentIn_of_resolved {sessions : List SessionWithParent} {s : SessionWithParent}
    (h : isResolvedChild sessions s = true) :
    ∃ q, parentIn sessions s = some q ∧ q ∈ sessions ∧ s.parentSession = some q.path := by
  rcases isResolvedChild_iff.mp h with ⟨p, hp, hpe, hpm⟩
  rcases List.mem_map.mp hpm with ⟨t0, ht0, hpath⟩
  have hsome : (sessions.find? (fun t => t.path == p)).isSome := by
    rw [List.find?_isSome]
    exact ⟨t0, ht0, by simp [hpath]⟩
  rcases Option.isSome_iff_exists.mp hsome with ⟨q, hq⟩
  have hqp : q.path = p := by
    have := List.find?_some hq
    simpa using this
  refine ⟨q, ?_, List.mem_of_find?_eq_some hq, ?_⟩
  · simp only [parentIn, hp, hpe, Bool.false_eq_true, if_false]
    exact hq
  · rw [hp, hqp]

theorem parentIn_eq_some {sessions : List SessionWithParent} {s q : SessionWithParent}
    (h : parentIn sessions s = some q) :
    q ∈ sessions ∧ s.parentSession = some q.path := by
  cases hp : s.parentSession with
  | none => simp [parentIn, hp] at h
  | some p =>
    simp only [parentIn, hp] at h
    by_cases he : p.isEmpty = true
    · simp [he] at h
    · rw [if_neg he] at h
      have hqp : q.path = p := by
        have := List.find?_some h
        simpa using this
      refine ⟨List.mem_of_find?_eq_some h, ?_⟩
      rw [hqp]

theorem chainToRootB_of_rootChain {sessions : List SessionWithParent}
    (hnd : (sessionPaths sessions).Nodup) {l : List SessionWithParent}
    (h : RootChain sessions l) :
    ∀ s anc, l = s :: anc → ∀ f, anc.length ≤ f → chainToRootB sessions f s = true := by
  induction h with
  | single hr hroot =>
    rename_i r
    intro s anc heq f _
    rw [List.cons.injEq] at heq
    obtain ⟨rfl, _⟩ := heq
    cases f with
    | zero => simp [chainToRootB, hroot]
    | succ f => simp [chainToRootB, hroot]
  | cons hc htail ih =>
    rename_i c p rest
    intro s anc heq f hf
    rw [List.cons.injEq] at heq
    obtain ⟨rfl, rfl⟩ := heq
    cases f with
    | zero => simp at hf
    | succ f =>
      rcases parentIn_of_resolved hc.2.1 with ⟨q, hq, hqm, hqpath⟩
      have hqp : q = p := by
        refine path_inj hnd hqm (rootChain_head_mem htail) ?_
        have heq : some q.path = some p.path := by rw [← hqpath, hc.2.2]
        exact Option.some_injective _ heq
      subst hqp
      simp only [chainToRootB, hc.2.1, if_true, hq]
      refine ih q rest rfl f ?_
      simp only [List.length_cons] at hf
      omega

theorem rootChain_of_chainToRootB {sessions : List SessionWithParent} :
    ∀ (f : Nat) (s : SessionWithParent), s ∈ sessions → chainToRootB sessions f s = true →
      ∃ anc, RootChain sessions (s :: anc) := by
  intro f
  induction f with
  | zero =>
    intro s hs h
    simp only [chainToRootB, Bool.not_eq_true'] at h
    exact ⟨[], RootChain.single hs h⟩
  | succ f ih =>
    intro s hs h
    by_cases hres : isResolvedChild sessions s = true
    · rcases parentIn_of_resolved hres with ⟨q, hq, hqm, hqpath⟩
      simp only [chainToRootB, hres, if_true, hq] at h
      rcases ih q hqm h with ⟨anc, hchain⟩
      exact ⟨q :: anc, RootChain.cons ⟨hs, hres, hqpath⟩ hchain⟩
    · exact ⟨[], RootChain.single hs (Bool.not_eq_true _ ▸ hres)⟩

/-! ### Contents of the whole forest -/

theorem forestSessions_eq (sessions : List SessionWithParent) :
    forestSessions sessions =
      (sortLe leModifiedDesc (sessions.filter (fun s => !isResolvedChild sessions s))).flatMap
        (fun r => sessionsOf (buildNode sessions sessions.length r 0)) := by
  simp [forestSessions, buildSessionTree, sessionsOfList_eq_flatMap, List.flatMap_map]

theorem mem_sortedRoots {sessions r : _} :
    r ∈ sortLe leModifiedDesc (sessions.filter (fun s => !isResolvedChild sessions s)) ↔
      r ∈ sessions ∧ isResolvedChild sessions r = false := by
  rw [mem_sortLe]
  simp [List.mem_filter]

theorem forest_mem {sessions : List SessionWithParent}
    (hnd : (sessionPaths sessions).Nodup) (t : SessionWithParent) :
    t ∈ forestSessions sessions ↔
      t ∈ sessions ∧ ∃ anc, RootChain sessions (t :: anc) := by
  rw [forestSessions_eq]
  constructor
  · intro h
    rcases List.mem_flatMap.mp h with ⟨r, hr, ht⟩
    rcases mem_sortedRoots.mp hr with ⟨hrm, hroot⟩
    have hchain : RootChain sessions [r] := RootChain.single hrm hroot
    have hspec := buildNode_spec hnd sessions.length r [] 0 hchain (by simp)
    rcases hspec.2.1 t ht with ⟨htm, hanc⟩
    exact ⟨htm, rootChain_extend hanc [] hchain⟩
  · rintro ⟨htm, anc, hchain⟩
    rcases rootChain_to_root hchain with ⟨r, hrm, hroot, hsp⟩
    have hrchain : RootChain sessions [r] := RootChain.single hrm hroot
    have hspec := buildNode_spec hnd sessions.length r [] 0 hrchain (by simp)
    refine List.mem_flatMap.mpr ⟨r, mem_sortedRoots.mpr ⟨hrm, hroot⟩, ?_⟩
    exact hspec.2.2 t htm (hsp t anc rfl)

theorem forest_nodup {sessions : List SessionWithParent}
    (hnd : (sessionPaths sessions).Nodup) : (forestSessions sessions).Nodup := by
  rw [forestSessions_eq]
  refine List.nodup_flatMap.mpr ⟨?_, ?_⟩
  · intro r hr
    rcases mem_sortedRoots.mp hr with ⟨hrm, hroot⟩
    exact (buildNode_spec hnd sessions.length r [] 0 (RootChain.single hrm hroot) (by simp)).1
  · refine List.Pairwise.imp_of_mem ?_
      (sortLe_nodup _ ((sessions_nodup hnd).filter _))
    intro a b haB hbB hne t hta htb
    rcases mem_sortedRoots.mp haB with ⟨ham, haroot⟩
    rcases mem_sortedRoots.mp hbB with ⟨hbm, hbroot⟩
    have hsa := buildNode_spec hnd sessions.length a [] 0 (RootChain.single ham haroot) (by simp)
    have hsb := buildNode_spec hnd sessions.length b [] 0 (RootChain.single hbm hbroot) (by simp)
    have hat : AncStar sessions a t := (hsa.2.1 t hta).2
    have hbt : AncStar sessions b t := (hsb.2.1 t htb).2
    rcases ancStar_linear hnd hat hbt with hab | hba
    · rcases ancStar_parent hab (fun hba => hne hba.symm) with ⟨q, _, hbq, _⟩
      rw [hbq.2.1] at hbroot
      cases hbroot
    · rcases ancStar_parent hba hne with ⟨q, _, haq, _⟩
      rw [haq.2.1] at haroot
      cases haroot

theorem forest_mem_chainB {sessions : List SessionWithParent}
    (hnd : (sessionPaths sessions).Nodup) {t : SessionWithParent} (htm : t ∈ sessions) :
    t ∈ forestSessions sessions ↔ chainToRootB sessions sessions.length t = true := by
  rw [forest_mem hnd]
  constructor
  · rintro ⟨_, anc, hchain⟩
    have hlen := rootChain_length hnd hchain
    simp only [List.length_cons] at hlen
    exact chainToRootB_of_rootChain hnd hchain t anc rfl sessions.length (by omega)
  · intro h
    exact ⟨htm, rootChain_of_chainToRootB sessions.length t htm h⟩

theorem forest_perm {sessions : List SessionWithParent}
    (hnd : (sessionPaths sessions).Nodup)
    (hac : ∀ s ∈ sessions, chainToRootB sessions sessions.length s = true) :
    (forestSessions sessions).Perm sessions := by
  refine List.Subperm.antisymm ?_ ?_
  · refine (forest_nodup hnd).subperm ?_
    intro t ht
    exact ((forest_mem hnd t).mp ht).1
  · refine (sessions_nodup hnd).subperm ?_
    intro t ht
    exact (forest_mem_chainB hnd ht).mpr (hac t ht)

/-! ### Flatten entries project onto the forest sessions -/

mutual
theorem flattenNode_sessions :
    ∀ (t : SessionTreeNode) (d : Nat) (pp : List String) (b : Bool),
      (flattenNode t d pp b).map FlatNode.session = sessionsOf t
  | SessionTreeNode.mk s cs dd, d, pp, b => by
    simp only [flattenNode, sessionsOf, List.map_cons]
    rw [flattenChildren_sessions]

theorem flattenChildren_sessions :
    ∀ (ts : List SessionTreeNode) (i tot d : Nat) (pp : List String),
      (flattenChildren ts i tot d pp).map FlatNode.session = sessionsOfList ts
  | [], _, _, _, _ => rfl
  | t :: ts, i, tot, d, pp => by
    simp only [flattenChildren, sessionsOfList, List.map_append]
    rw [flattenNode_sessions, flattenChildren_sessions]
end

theorem flattenTree_sessions (roots : List SessionTreeNode) :
    (flattenTree roots).map FlatNode.session = sessionsOfList roots :=
  flattenChildren_sessions roots 0 roots.length 0 []

/-! ### Ordering of roots and children (C5 support) -/

theorem leCreatedAsc_trans : ∀ a b c, leCreatedAsc a b = true → leCreatedAsc b c = true →
    leCreatedAsc a c = true := by
  intro a b c hab hbc
  simp only [leCreatedAsc, decide_eq_true_eq] at hab hbc ⊢
  omega

theorem leCreatedAsc_total : ∀ a b, leCreatedAsc a b = false → leCreatedAsc b a = true := by
  intro a b h
  simp only [leCreatedAsc, decide_eq_true_eq, decide_eq_false_iff_not] at h ⊢
  omega

theorem leModifiedDesc_trans : ∀ a b c, leModifiedDesc a b = true → leModifiedDesc b c = true →
    leModifiedDesc a c = true := by
  intro a b c hab hbc
  simp only [leModifiedDesc, decide_eq_true_eq] at hab hbc ⊢
  omega

theorem leModifiedDesc_total : ∀ a b, leModifiedDesc a b = false → leModifiedDesc b a = true := by
  intro a b h
  simp only [leModifiedDesc, decide_eq_true_eq, decide_eq_false_iff_not] at h ⊢
  omega

theorem buildSessionTree_roots_sorted (sessions : List SessionWithParent) :
    (buildSessionTree sessions).Pairwise
      (fun a b => b.session.modified ≤ a.session.modified) := by
  unfold buildSessionTree
  rw [List.pairwise_map]
  refine List.Pairwise.imp ?_
    (sortLe_pairwise leModifiedDesc leModifiedDesc_trans leModifiedDesc_total _)
  intro a b hab
  simp only [buildNode_session]
  simpa [leModifiedDesc] using hab

theorem buildNode_children_sorted (sessions : List SessionWithParent) :
    ∀ (f : Nat) (s : SessionWithParent) (d : Nat) (t : SessionTreeNode),
      t ∈ nodesOf (buildNode sessions f s d) →
      t.children.Pairwise (fun a b => a.session.created ≤ b.session.created) := by
  intro f
  induction f with
  | zero =>
    intro s d t ht
    simp only [buildNode, nodesOf, nodesOfList] at ht
    rcases List.mem_singleton.mp ht with rfl
    simp [SessionTreeNode.children]
  | succ f ih =>
    intro s d t ht
    simp only [buildNode, nodesOf] at ht
    rcases List.mem_cons.mp ht with rfl | ht
    · simp only [SessionTreeNode.children]
      rw [List.pairwise_map]
      refine List.Pairwise.imp ?_
        (sortLe_pairwise leCreatedAsc leCreatedAsc_trans leCreatedAsc_total _)
      intro a b hab
      simp only [buildNode_session]
      simpa [leCreatedAsc] using hab
    · rw [nodesOfList_eq_flatMap] at ht
      rcases List.mem_flatMap.mp ht with ⟨tn, htn, htm⟩
      rcases List.mem_map.mp htn with ⟨c, _, rfl⟩
      exact ih c (d + 1) t htm

theorem buildSessionTree_children_sorted (sessions : List SessionWithParent) :
    ∀ t ∈ nodesOfList (buildSessionTree sessions),
      t.children.Pairwise (fun a b => a.session.created ≤ b.session.created) := by
  intro t ht
  rw [nodesOfList_eq_flatMap] at ht
  rcases List.mem_flatMap.mp ht with ⟨tn, htn, htm⟩
  unfold buildSessionTree at htn
  rcases List.mem_map.mp htn with ⟨r, _, rfl⟩
  exact buildNode_children_sorted sessions sessions.length r 0 t htm

/-! ### Depth projection of the flattening (heads of sibling blocks) -/

/-- The `FlatNode` pushed for a node itself (before its children). -/
def headEntry (t : SessionTreeNode) (d : Nat) (pp : List String) (b : Bool) : FlatNode :=
  { session := t.session, depth := d,
    pfx := if d > 0 then String.join pp ++ (if b then "└─ " else "├─ ") else "",
    isLast := b, hasChildren := decide (t.children.length > 0) }

theorem flattenNode_eq (t : SessionTreeNode) (d : Nat) (pp : List String) (b : Bool) :
    flattenNode t d pp b =
      headEntry t d pp b ::
        flattenChildren t.children 0 t.children.length (d + 1)
          (if d > 0 then pp ++ [if b then "   " else "│  "] else pp) := by
  cases t
  simp [flattenNode, headEntry, SessionTreeNode.session, SessionTreeNode.children]

/-- The entries for the nodes of a sibling block themselves, in order. -/
def headsOf : List SessionTreeNode → Nat → Nat → Nat → List String → List FlatNode
  | [], _, _, _, _ => []
  | t :: ts, i, tot, d, pp => headEntry t d pp (i == tot - 1) :: headsOf ts (i + 1) tot d pp

mutual
theorem flattenNode_depth_ge :
    ∀ (t : SessionTreeNode) (d : Nat) (pp : List String) (b : Bool),
      ∀ e ∈ flattenNode t d pp b, d ≤ e.depth
  | SessionTreeNode.mk s cs dd, d, pp, b => by
    intro e he
    simp only [flattenNode] at he
    rcases List.mem_cons.mp he with rfl | he
    · exact Nat.le_refl _
    · exact Nat.le_of_succ_le (flattenChildren_depth_ge cs 0 cs.length (d + 1) _ e he)

theorem flattenChildren_depth_ge :
    ∀ (ts : List SessionTreeNode) (i tot d : Nat) (pp : List String),
      ∀ e ∈ flattenChildren ts i tot d pp, d ≤ e.depth
  | [], _, _, _, _ => by intro e he; cases he
  | t :: ts, i, tot, d, pp => by
    intro e he
    simp only [flattenChildren] at he
    rcases List.mem_append.mp he with he | he
    · exact flattenNode_depth_ge t d pp _ e he
    · exact flattenChildren_depth_ge ts (i + 1) tot d pp e he
end

theorem flattenChildren_filter_depth :
    ∀ (ts : List SessionTreeNode) (i tot d : Nat) (pp : List String),
      (flattenChildren ts i tot d pp).filter (fun e => e.depth == d) =
        headsOf ts i tot d pp := by
  intro ts
  induction ts with
  | nil => intro i tot d pp; rfl
  | cons t ts ih =>
    intro i tot d pp
    simp only [flattenChildren, List.filter_append]
    rw [flattenNode_eq]
    have hinner :
        (flattenChildren t.children 0 t.children.length (d + 1)
            (if d > 0 then pp ++ [if (i == tot - 1) then "   " else "│  "] else pp)).filter
          (fun e => e.depth == d) = [] := by
      rw [List.filter_eq_nil_iff]
      intro e he
      have := flattenChildren_depth_ge _ _ _ _ _ e he
      simp only [beq_iff_eq]
      omega
    rw [List.filter_cons]
    simp only [headEntry, beq_self_eq_true, if_true, hinner, List.nil_append]
    rw [ih]
    rfl

theorem headsOf_sessions :
    ∀ (ts : List SessionTreeNode) (i tot d : Nat) (pp : List String),
      (headsOf ts i tot d pp).map FlatNode.session = ts.map SessionTreeNode.session := by
  intro ts
  induction ts with
  | nil => intro i tot d pp; rfl
  | cons t ts ih =>
    intro i tot d pp
    simp only [headsOf, List.map_cons, headEntry]
    rw [ih]

theorem headsOf_isLast :
    ∀ (ts : List SessionTreeNode) (i tot d : Nat) (pp : List String),
      (headsOf ts i tot d pp).map FlatNode.isLast =
        (List.range ts.length).map (fun j => (i + j == tot - 1)) := by
  intro ts
  induction ts with
  | nil => intro i tot d pp; rfl
  | cons t ts ih =>
    intro i tot d pp
    simp only [headsOf, List.map_cons, headEntry, List.length_cons,
      List.range_succ_eq_map, List.map_map]
    rw [ih (i + 1) tot d pp]
    refine congrArg (fun l => (i + 0 == tot - 1) :: l) ?_
    refine List.map_congr_left ?_
    intro j _
    simp only [Function.comp]
    rw [show i + 1 + j = i + (j + 1) by omega]

theorem flatten_sibling_flags (ts : List SessionTreeNode) (i tot d : Nat) (pp : List String)
    (htot : tot = i + ts.length) :
    ((flattenChildren ts i tot d pp).filter (fun e => e.depth == d)).map FlatNode.isLast =
      (List.range ts.length).map (fun j => (j == ts.length - 1)) := by
  rw [flattenChildren_filter_depth, headsOf_isLast]
  refine List.map_congr_left ?_
  intro j hj
  rw [List.mem_range] at hj
  subst htot
  rw [Bool.eq_iff_iff]
  simp only [beq_iff_eq]
  omega

theorem flatten_sibling_sessions (ts : List SessionTreeNode) (i tot d : Nat)
    (pp : List String) :
    ((flattenChildren ts i tot d pp).filter (fun e => e.depth == d)).map FlatNode.session =
      ts.map SessionTreeNode.session := by
  rw [flattenChildren_filter_depth, headsOf_sessions]

/-! ### Flattening annotated with ancestor last-child flags (C3 support) -/

/-- The prefix fragment a depth-at-least-one ancestor contributes: three
blanks if it was its parent's last child, a bar plus two spaces otherwise. -/
def fragOf (b : Bool) : String := if b then "   " else "│  "

mutual
/-- `flattenNode`, but carrying for each produced entry the list of its
proper ancestors of depth at least 1, each paired with its own `isLast`
flag, instead of the precomputed prefix strings. -/
def flattenAnnNode : SessionTreeNode → Nat → List (SessionWithParent × Bool) → Bool →
    List (FlatNode × List (SessionWithParent × Bool))
  | SessionTreeNode.mk sess children _d, depth, ancs, isLast =>
    ({ session := sess, depth := depth,
       pfx :=
         if depth > 0 then
           String.join (ancs.map (fun ab => fragOf ab.2)) ++ (if isLast then "└─ " else "├─ ")
         else "",
       isLast := isLast, hasChildren := decide (children.length > 0) }, ancs) ::
      flattenAnnChildren children 0 children.length (depth + 1)
        (if depth > 0 then ancs ++ [(sess, isLast)] else ancs)

def flattenAnnChildren : List SessionTreeNode → Nat → Nat → Nat →
    List (SessionWithParent × Bool) → List (FlatNode × List (SessionWithParent × Bool))
  | [], _, _, _, _ => []
  | c :: rest, i, tot, depth, ancs =>
    flattenAnnNode c depth ancs (i == tot - 1) ++ flattenAnnChildren rest (i + 1) tot depth ancs
end

/-- Annotated version of `flattenTree`. -/
def flattenAnnTree (roots : List SessionTreeNode) :
    List (FlatNode × List (SessionWithParent × Bool)) :=
  flattenAnnChildren roots 0 roots.length 0 []

mutual
theorem flattenAnnNode_fst :
    ∀ (t : SessionTreeNode) (depth : Nat) (ancs : List (SessionWithParent × Bool)) (b : Bool),
      (flattenAnnNode t depth ancs b).map Prod.fst =
        flattenNode t depth (ancs.map (fun ab => fragOf ab.2)) b
  | SessionTreeNode.mk s cs dd, depth, ancs, b => by
    simp only [flattenAnnNode, flattenNode, List.map_cons]
    rw [flattenAnnChildren_fst]
    by_cases hd : depth > 0
    · simp [hd, List.map_append, fragOf]
    · simp [hd]

theorem flattenAnnChildren_fst :
    ∀ (ts : List SessionTreeNode) (i tot depth : Nat)
      (ancs : List (SessionWithParent × Bool)),
      (flattenAnnChildren ts i tot depth ancs).map Prod.fst =
        flattenChildren ts i tot depth (ancs.map (fun ab => fragOf ab.2))
  | [], _, _, _, _ => rfl
  | t :: ts, i, tot, depth, ancs => by
    simp only [flattenAnnChildren, flattenChildren, List.map_append]
    rw [flattenAnnNode_fst, flattenAnnChildren_fst]
end

mutual
theorem flattenAnnNode_spec :
    ∀ (t : SessionTreeNode) (depth : Nat) (ancs : List (SessionWithParent × Bool)) (b : Bool),
      (depth = 0 → ancs = []) → (0 < depth → ancs.length = depth - 1) →
      ∀ pr ∈ flattenAnnNode t depth ancs b,
        (pr.1.depth = 0 → pr.1.pfx = "" ∧ pr.2 = []) ∧
        (0 < pr.1.depth → pr.2.length = pr.1.depth - 1 ∧
          pr.1.pfx = String.join (pr.2.map (fun ab => fragOf ab.2)) ++
            (if pr.1.isLast then "└─ " else "├─ "))
  | SessionTreeNode.mk s cs dd, depth, ancs, b => by
    intro h0 h1 pr hpr
    simp only [flattenAnnNode] at hpr
    rcases List.mem_cons.mp hpr with rfl | hpr
    · constructor
      · intro hd
        simp only at hd
        subst hd
        exact ⟨by simp, h0 rfl⟩
      · intro hd
        simp only at hd
        refine ⟨h1 hd, ?_⟩
        simp [hd]
    · refine flattenAnnChildren_spec cs 0 cs.length (depth + 1) _ ?_ ?_ pr hpr
      · intro h; cases h
      · intro _
        by_cases hd : depth > 0
        · simp only [if_pos hd, List.length_append, List.length_cons, List.length_nil]
          have := h1 hd
          omega
        · have hdz : depth = 0 := by omega
          simp only [hd, if_false]
          rw [h0 hdz, hdz]
          rfl

theorem flattenAnnChildren_spec :
    ∀ (ts : List SessionTreeNode) (i tot depth : Nat)
      (ancs : List (SessionWithParent × Bool)),
      (depth = 0 → ancs = []) → (0 < depth → ancs.length = depth - 1) →
      ∀ pr ∈ flattenAnnChildren ts i tot depth ancs,
        (pr.1.depth = 0 → pr.1.pfx = "" ∧ pr.2 = []) ∧
        (0 < pr.1.depth → pr.2.length = pr.1.depth - 1 ∧
          pr.1.pfx = String.join (pr.2.map (fun ab => fragOf ab.2)) ++
            (if pr.1.isLast then "└─ " else "├─ "))
  | [], _, _, _, _ => by intro _ _ pr hpr; cases hpr
  | t :: ts, i, tot, depth, ancs => by
    intro h0 h1 pr hpr
    simp only [flattenAnnChildren] at hpr
    rcases List.mem_append.mp hpr with hpr | hpr
    · exact flattenAnnNode_spec t depth ancs _ h0 h1 pr hpr
    · exact flattenAnnChildren_spec ts (i + 1) tot depth ancs h0 h1 pr hpr
end

theorem fragOf_count (l : List (SessionWithParent × Bool)) :
    (l.map (fun ab => fragOf ab.2)).count "│  " = (l.filter (fun ab => !ab.2)).length := by
  induction l with
  | nil => rfl
  | cons a l ih =>
    cases ha : a.2 with
    | true =>
      have hne : ("│  " : String) ≠ "   " := by decide
      have hmap : (a :: l).map (fun ab => fragOf ab.2) =
          "   " :: l.map (fun ab => fragOf ab.2) := by simp [fragOf, ha]
      have hfil : (a :: l).filter (fun ab => !ab.2) = l.filter (fun ab => !ab.2) := by
        simp [List.filter_cons, ha]
      rw [hmap, hfil, List.count_cons_of_ne hne, ih]
    | false =>
      have hmap : (a :: l).map (fun ab => fragOf ab.2) =
          "│  " :: l.map (fun ab => fragOf ab.2) := by simp [fragOf, ha]
      have hfil : (a :: l).filter (fun ab => !ab.2) = a :: l.filter (fun ab => !ab.2) := by
        simp [List.filter_cons, ha]
      rw [hmap, hfil, List.count_cons_self, List.length_cons, ih]

/-! ### Filter lemmas (C4, C9 support) -/

theorem charsIncl_nil_needle (hay : List Char) : charsIncl [] hay = true := by
  unfold charsIncl
  simp [charsStart]

theorem strIncludes_empty_needle (s : String) : strIncludes s "" = true :=
  charsIncl_nil_needle s.data

theorem applyFilterList_eq (l : List FlatNode) (q : String) :
    applyFilterList l q = l.filter (fun n => nodeMatches (normalizeQuery q) n) := by
  unfold applyFilterList
  by_cases h : (normalizeQuery q).isEmpty = true
  · rw [if_pos h]
    refine (List.filter_eq_self.mpr ?_).symm
    intro n _
    unfold nodeMatches
    rw [(String.isEmpty_iff _).mp h]
    exact strIncludes_empty_needle _
  · rw [if_neg h]

theorem applyFilterList_sublist (l : List FlatNode) (q : String) :
    (applyFilterList l q).Sublist l := by
  rw [applyFilterList_eq]
  exact List.filter_sublist l

theorem applyFilterList_mem (l : List FlatNode) (q : String) (n : FlatNode) :
    n ∈ applyFilterList l q ↔ n ∈ l ∧ nodeMatches (normalizeQuery q) n = true := by
  rw [applyFilterList_eq]
  exact List.mem_filter

theorem applyFilterList_idem (l : List FlatNode) (q : String) :
    applyFilterList (applyFilterList l q) q = applyFilterList l q := by
  rw [applyFilterList_eq l q, applyFilterList_eq, List.filter_filter]
  simp [Bool.and_self]

theorem normalizeQuery_empty : (normalizeQuery "").isEmpty = true := by decide

theorem applyFilterList_empty_query (l : List FlatNode) : applyFilterList l "" = l := by
  simp [applyFilterList, normalizeQuery_empty]

/-! ### Selector invariant (C6, C10 support) -/

theorem findIdx?_bounds {α : Type} :
    ∀ (l : List α) (p : α → Bool) (start i : Nat),
      List.findIdx? p l start = some i → start ≤ i ∧ i < start + l.length := by
  intro l
  induction l with
  | nil => intro p start i h; simp [List.findIdx?] at h
  | cons a l ih =>
    intro p start i h
    simp only [List.findIdx?] at h
    by_cases hpa : p a = true
    · rw [if_pos hpa] at h
      rcases Option.some_injective _ h with rfl
      simp only [List.length_cons]
      omega
    · rw [if_neg hpa] at h
      have := ih p (start + 1) i h
      simp only [List.length_cons]
      omega

/-- The state invariant actually maintained by `SessionTreeSelector`: the
window size is positive, and the selected index lies in
`[-1, max 0 (filteredNodes.length - 1)]` (so in `[-1, length - 1]` whenever
the filtered list is non-empty). -/
def SelInv (s : SelectorState) : Prop :=
  1 ≤ s.maxVisibleLines ∧ -1 ≤ s.selectedIndex ∧
    s.selectedIndex ≤ max 0 ((s.filteredNodes.length : Int) - 1)

theorem mkSelector_none (roots : List SessionTreeNode) (m : Int) :
    mkSelector roots m none =
      { flatNodes := flattenTree roots, query := "", filteredNodes := flattenTree roots,
        selectedIndex := 0, scrollOffset := 0, maxVisibleLines := m, searchMode := false } := rfl

theorem mkSelector_some_of_none (roots : List SessionTreeNode) (m : Int) (cp : String)
    (h : (flattenTree roots).findIdx? (fun n => n.session.path == cp) = none) :
    mkSelector roots m (some cp) =
      { flatNodes := flattenTree roots, query := "", filteredNodes := flattenTree roots,
        selectedIndex := 0, scrollOffset := 0, maxVisibleLines := m, searchMode := false } := by
  simp [mkSelector, h]

theorem mkSelector_some_of_idx (roots : List SessionTreeNode) (m : Int) (cp : String)
    (idx : Nat) (h : (flattenTree roots).findIdx? (fun n => n.session.path == cp) = some idx) :
    mkSelector roots m (some cp) =
      ensureVisibleS
        { flatNodes := flattenTree roots, query := "", filteredNodes := flattenTree roots,
          selectedIndex := (idx : Int), scrollOffset := 0, maxVisibleLines := m,
          searchMode := false } := by
  simp [mkSelector, h]

theorem selInv_mk (roots : List SessionTreeNode) (m : Int) (cp : Option String)
    (hm : 1 ≤ m) : SelInv (mkSelector roots m cp) := by
  cases cp with
  | none =>
    rw [mkSelector_none]
    refine ⟨hm, by norm_num, ?_⟩
    simp
  | some cp =>
    cases hidx : (flattenTree roots).findIdx? (fun n => n.session.path == cp) with
    | none =>
      rw [mkSelector_some_of_none roots m cp hidx]
      refine ⟨hm, by norm_num, ?_⟩
      simp
    | some idx =>
      have hb := findIdx?_bounds (flattenTree roots) (fun n => n.session.path == cp) 0 idx hidx
      rw [mkSelector_some_of_idx roots m cp idx hidx]
      refine ⟨hm, ?_, ?_⟩
      · simp [ensureVisibleS]
        omega
      · simp [ensureVisibleS]
        omega

theorem selInv_applyFilterS (s : SelectorState) (h : SelInv s) : SelInv (applyFilterS s) := by
  rcases h with ⟨hm, hlo, hhi⟩
  refine ⟨hm, ?_, ?_⟩
  · simp [applyFilterS, ensureVisibleS]
    omega
  · simp [applyFilterS, ensureVisibleS]
    omega

theorem selInv_step {s t : SelectorState} (h : SelInv s) (hst : SelStep s t) : SelInv t := by
  cases hst with
  | browse k hmode =>
    rcases h with ⟨hm, hlo, hhi⟩
    cases k with
    | up =>
      by_cases hc : s.selectedIndex > 0
      · refine ⟨?_, ?_, ?_⟩ <;> simp [handleBrowse, hc, ensureVisibleS] <;> omega
      · simp only [handleBrowse, if_neg hc]
        exact ⟨hm, hlo, hhi⟩
    | down =>
      by_cases hc : s.selectedIndex < (s.filteredNodes.length : Int) - 1
      · refine ⟨?_, ?_, ?_⟩ <;> simp [handleBrowse, hc, ensureVisibleS] <;> omega
      · simp only [handleBrowse, if_neg hc]
        exact ⟨hm, hlo, hhi⟩
    | pageUp => refine ⟨?_, ?_, ?_⟩ <;> simp [handleBrowse, ensureVisibleS] <;> omega
    | pageDown => refine ⟨?_, ?_, ?_⟩ <;> simp [handleBrowse, ensureVisibleS] <;> omega
    | home =>
      refine ⟨?_, ?_, ?_⟩ <;> simp [handleBrowse, ensureVisibleS] <;> omega
    | endKey =>
      refine ⟨?_, ?_, ?_⟩ <;> simp [handleBrowse, ensureVisibleS] <;> omega
    | enter => exact ⟨hm, hlo, hhi⟩
    | escape => exact ⟨hm, hlo, hhi⟩
    | slash => exact ⟨hm, hlo, hhi⟩
    | other => exact ⟨hm, hlo, hhi⟩
  | search k newQuery hmode =>
    cases k with
    | escape => exact selInv_applyFilterS _ ⟨h.1, h.2.1, h.2.2⟩
    | enter => exact ⟨h.1, h.2.1, h.2.2⟩
    | up => exact selInv_applyFilterS _ ⟨h.1, h.2.1, h.2.2⟩
    | down => exact selInv_applyFilterS _ ⟨h.1, h.2.1, h.2.2⟩
    | pageUp => exact selInv_applyFilterS _ ⟨h.1, h.2.1, h.2.2⟩
    | pageDown => exact selInv_applyFilterS _ ⟨h.1, h.2.1, h.2.2⟩
    | home => exact selInv_applyFilterS _ ⟨h.1, h.2.1, h.2.2⟩
    | endKey => exact selInv_applyFilterS _ ⟨h.1, h.2.1, h.2.2⟩
    | slash => exact selInv_applyFilterS _ ⟨h.1, h.2.1, h.2.2⟩
    | other => exact selInv_applyFilterS _ ⟨h.1, h.2.1, h.2.2⟩

/-! ### Progress notifications (C8 support) -/

theorem loadLoop_snd (headerOf : SessionInfo → Option (Option String)) (total : Nat) :
    ∀ (l : List SessionInfo) (loaded : Nat),
      (loadLoop headerOf total l loaded).2 =
        (List.range l.length).map (fun i => (loaded + 1 + i, total)) := by
  intro l
  induction l with
  | nil => intro loaded; rfl
  | cons s l ih =>
    intro loaded
    simp only [loadLoop, List.length_cons, List.range_succ_eq_map, List.map_cons, List.map_map]
    rw [ih (loaded + 1)]
    refine congrArg (fun x => (loaded + 1 + 0, total) :: x) ?_
    refine List.map_congr_left ?_
    intro j _
    simp only [Function.comp]
    rw [show loaded + 1 + 1 + j = loaded + 1 + (j + 1) by omega]

theorem loadLoop_fst_length (headerOf : SessionInfo → Option (Option String)) (total : Nat) :
    ∀ (l : List SessionInfo) (loaded : Nat),
      (loadLoop headerOf total l loaded).1.length = l.length := by
  intro l
  induction l with
  | nil => intro loaded; rfl
  | cons s l ih =>
    intro loaded
    simp only [loadLoop, List.length_cons]
    rw [ih (loaded + 1)]

/-! ### Arithmetic specification of `ensureVisible` (C6 support) -/

theorem ensureVisible_spec (sel off m : Int) (hm : 0 < m) :
    ensureVisible sel off m ≤ sel ∧ sel < ensureVisible sel off m + m ∧
    (off ≤ sel → sel < off + m → ensureVisible sel off m = off) ∧
    (∀ o : Int, o ≤ sel → sel < o + m →
      (ensureVisible sel off m - off).natAbs ≤ (o - off).natAbs) := by
  unfold ensureVisible
  split_ifs with ha hb
  · exact ⟨by omega, by omega, fun hx hy => by omega, fun o hx hy => by omega⟩
  · exact ⟨by omega, by omega, fun hx hy => by omega, fun o hx hy => by omega⟩
  · exact ⟨by omega, by omega, fun hx hy => by omega, fun o hx hy => by omega⟩

/-! ### Concrete inputs used by the witnesses and counterexamples -/

/-- A parentless session, modified at 10 (spec section 8 example, `root1`). -/
def sesR1 : SessionWithParent :=
  { path := "/a", name := none, firstMessage := some "root one", cwd := "/w",
    created := 10, modified := 10, parentSession := none }

/-- A child of `/a` created at 11 (spec section 8 example, `child1`). -/
def sesC1 : SessionWithParent :=
  { path := "/b", name := some "child", firstMessage := none, cwd := "/w",
    created := 11, modified := 11, parentSession := some "/a" }

/-- A parentless session, modified at 20 (spec section 8 example, `root2`). -/
def sesR2 : SessionWithParent :=
  { path := "/c", name := none, firstMessage := some "root two", cwd := "/w",
    created := 5, modified := 20, parentSession := none }

/-- A session whose parent reference is its own path. -/
def sesSelf : SessionWithParent :=
  { path := "/s", name := none, firstMessage := none, cwd := "",
    created := 1, modified := 1, parentSession := some "/s" }

/-- Another self-referencing session (used by the C2 witness). -/
def sesSelfB : SessionWithParent :=
  { path := "/t", name := some "self", firstMessage := none, cwd := "/w",
    created := 2, modified := 2, parentSession := some "/t" }

/-- First member of a two-session parent-reference cycle. -/
def sesCycA : SessionWithParent :=
  { path := "/ca", name := none, firstMessage := some "cycle a", cwd := "/w",
    created := 1, modified := 1, parentSession := some "/cb" }

/-- Second member of a two-session parent-reference cycle. -/
def sesCycB : SessionWithParent :=
  { path := "/cb", name := none, firstMessage := some "cycle b", cwd := "/w",
    created := 2, modified := 2, parentSession := some "/ca" }

/-- A flat entry whose match target is exactly `ab`. -/
def cexNodeAB : FlatNode :=
  { session :=
      { path := "", name := some "ab", firstMessage := none, cwd := "",
        created := 0, modified := 0, parentSession := none },
    depth := 0, pfx := "", isLast := true, hasChildren := false }

/-- A one-node tree used by the C3 witness. -/
def wTreeChildSession : SessionWithParent :=
  { path := "/w1", name := some "w", firstMessage := none, cwd := "/w",
    created := 3, modified := 3, parentSession := some "/w0" }

def wTreeRootSession : SessionWithParent :=
  { path := "/w0", name := some "v", firstMessage := none, cwd := "/w",
    created := 2, modified := 4, parentSession := none }

def wTree : SessionTreeNode :=
  SessionTreeNode.mk wTreeRootSession [SessionTreeNode.mk wTreeChildSession [] 1] 0

/-- The entry the annotated flattening produces for the child of `wTree`. -/
def wTreeChildEntry : FlatNode × List (SessionWithParent × Bool) :=
  ({ session := wTreeChildSession, depth := 1, pfx := "└─ ", isLast := true,
     hasChildren := false }, [])

/-! ### The claims -/

/-- C1 (amended): for every input whose paths are pairwise distinct and in
which following parent references from every session reaches a session with
no resolved parent (no self-reference or reference cycle), flattening the
tree built by `buildSessionTree` yields exactly one `FlatNode` per input
session: the entries' sessions are a permutation of the input (so none
dropped and none duplicated), and in particular the lengths agree. Sessions
on parent-reference cycles are dropped, which is why the acyclicity
hypothesis is needed (see the counterexample). -/
theorem C1_flatten_one_entry_per_session (sessions : List SessionWithParent)
    (hnd : (sessionPaths sessions).Nodup)
    (hac : ∀ s ∈ sessions, chainToRootB sessions sessions.length s = true) :
    ((flattenTree (buildSessionTree sessions)).map FlatNode.session).Perm sessions ∧
    (flattenTree (buildSessionTree sessions)).length = sessions.length := by
  have hperm : ((flattenTree (buildSessionTree sessions)).map FlatNode.session).Perm sessions := by
    rw [flattenTree_sessions]
    exact forest_perm hnd hac
  refine ⟨hperm, ?_⟩
  have := hperm.length_eq
  simpa using this

/-- C1 witness: the three-session example of spec section 8 satisfies both
hypotheses and flattens to exactly three entries. -/
theorem C1_witness :
    ((sessionPaths [sesR1, sesC1, sesR2]).Nodup ∧
      ∀ s ∈ [sesR1, sesC1, sesR2],
        chainToRootB [sesR1, sesC1, sesR2] [sesR1, sesC1, sesR2].length s = true) ∧
    (flattenTree (buildSessionTree [sesR1, sesC1, sesR2])).length =
      [sesR1, sesC1, sesR2].length :=
  ⟨⟨by decide, by decide⟩,
    (C1_flatten_one_entry_per_session [sesR1, sesC1, sesR2] (by decide) (by decide)).2⟩

/-- C1 counterexample: a single session whose parent reference is its own
path yields no `FlatNode` at all, so the flattening does not contain one
entry per input session. -/
theorem C1_counterexample :
    (flattenTree (buildSessionTree [sesSelf])).map FlatNode.session = [] ∧
    [sesSelf].length = 1 := by decide

/-- C2 (amended): `buildSessionTree` followed by `flattenTree` always
terminates with a finite result, but a session whose parent reference is its
own path, or part of a reference cycle, is dropped rather than treated as a
root: a session yields a flat entry if and only if following its parent
references reaches a session with no resolved parent, and in particular a
self-referencing session (with a non-empty path) yields no entry. -/
theorem C2_cyclic_sessions_dropped (sessions : List SessionWithParent)
    (hnd : (sessionPaths sessions).Nodup) :
    (∀ t ∈ sessions,
      (t ∈ (flattenTree (buildSessionTree sessions)).map FlatNode.session ↔
        chainToRootB sessions sessions.length t = true)) ∧
    (∀ t ∈ sessions, t.parentSession = some t.path → t.path.isEmpty = false →
      t ∉ (flattenTree (buildSessionTree sessions)).map FlatNode.session) := by
  have hchar : ∀ t ∈ sessions,
      (t ∈ (flattenTree (buildSessionTree sessions)).map FlatNode.session ↔
        chainToRootB sessions sessions.length t = true) := by
    intro t ht
    rw [flattenTree_sessions]
    exact forest_mem_chainB hnd ht
  refine ⟨hchar, ?_⟩
  intro t ht hself hne hmem
  have hB := (hchar t ht).mp hmem
  rcases rootChain_of_chainToRootB sessions.length t ht hB with ⟨anc, hchain⟩
  have hres : isResolvedChild sessions t = true :=
    isResolvedChild_iff.mpr ⟨t.path, hself, hne, List.mem_map.mpr ⟨t, ht, rfl⟩⟩
  rcases rootChain_resolved_cons hchain hres with ⟨q, rest, hq, hcq, hq2⟩
  have hqt : q = t := by
    refine path_inj hnd (rootChain_head_mem hq2) ht ?_
    have : some q.path = some t.path := hcq.2.2.symm.trans hself
    exact Option.some_injective _ this
  subst hqt
  have hnodup := rootChain_nodup hnd hchain
  rw [hq] at hnodup
  exact (List.nodup_cons.mp hnodup).1 (List.mem_cons_self _ _)

/-- C2 witness: a concrete self-referencing session is dropped. -/
theorem C2_witness :
    ((sessionPaths [sesSelfB]).Nodup ∧ sesSelfB ∈ [sesSelfB] ∧
      sesSelfB.parentSession = some sesSelfB.path ∧ sesSelfB.path.isEmpty = false) ∧
    sesSelfB ∉ (flattenTree (buildSessionTree [sesSelfB])).map FlatNode.session :=
  ⟨⟨by decide, by decide, by decide, by decide⟩,
    (C2_cyclic_sessions_dropped [sesSelfB] (by decide)).2 sesSelfB (by decide) (by decide)
      (by decide)⟩

/-- C2 counterexample: in a two-session parent-reference cycle neither
session is treated as a root; the cycle members yield no flat entry at all
(here: the first one is absent from the flattening). -/
theorem C2_counterexample :
    sesCycA ∈ [sesCycA, sesCycB] ∧
    sesCycA ∉ (flattenTree (buildSessionTree [sesCycA, sesCycB])).map FlatNode.session := by
  decide

/-- C3 (confirmed): the annotated flattening carries, for every entry, the
final-sibling flags of its proper ancestors of depth at least 1, and
projects exactly onto `flattenTree` (first conjunct). Every depth-0 entry
has the empty prefix; for every deeper entry the prefix is the
concatenation of one fragment per such ancestor — three blanks for a
last-child ancestor, a bar plus two spaces otherwise — followed by the
entry's own connector, which is the last variant exactly when its
`isLast` flag holds; the number of bar fragments equals the number of
non-last ancestors (second conjunct). In every sibling block the `isLast`
flag (the flag `i === total - 1` computed by the source) is true exactly
for the final sibling (third conjunct). -/
theorem C3_pfx_structure :
    (∀ (roots : List SessionTreeNode),
      (flattenAnnTree roots).map Prod.fst = flattenTree roots) ∧
    (∀ (roots : List SessionTreeNode), ∀ pr ∈ flattenAnnTree roots,
      (pr.1.depth = 0 → pr.1.pfx = "" ∧ pr.2 = []) ∧
      (0 < pr.1.depth → pr.2.length = pr.1.depth - 1 ∧
        pr.1.pfx = String.join (pr.2.map (fun ab => fragOf ab.2)) ++
          (if pr.1.isLast then "└─ " else "├─ ") ∧
        (pr.2.map (fun ab => fragOf ab.2)).count "│  " =
          (pr.2.filter (fun ab => !ab.2)).length)) ∧
    (∀ (ts : List SessionTreeNode) (i tot d : Nat) (pp : List String),
      tot = i + ts.length →
      ((flattenChildren ts i tot d pp).filter (fun e => e.depth == d)).map FlatNode.isLast =
        (List.range ts.length).map (fun j => (j == ts.length - 1))) := by
  refine ⟨?_, ?_, flatten_sibling_flags⟩
  · intro roots
    unfold flattenAnnTree flattenTree
    rw [flattenAnnChildren_fst]
    rfl
  · intro roots pr hpr
    have hspec := flattenAnnChildren_spec roots 0 roots.length 0 []
      (fun _ => rfl) (fun h => by omega) pr hpr
    refine ⟨hspec.1, ?_⟩
    intro hd
    rcases hspec.2 hd with ⟨hlen, hpfx⟩
    exact ⟨hlen, hpfx, fragOf_count pr.2⟩

/-- C3 witness: the annotated flattening of a concrete one-child tree
contains the child's entry with no recorded ancestors, and the theorem
instantiates to it. -/
theorem C3_witness :
    (wTreeChildEntry.1.depth = 0 → wTreeChildEntry.1.pfx = "" ∧ wTreeChildEntry.2 = []) ∧
    (0 < wTreeChildEntry.1.depth → wTreeChildEntry.2.length = wTreeChildEntry.1.depth - 1 ∧
      wTreeChildEntry.1.pfx =
        String.join (wTreeChildEntry.2.map (fun ab => fragOf ab.2)) ++
          (if wTreeChildEntry.1.isLast then "└─ " else "├─ ") ∧
      (wTreeChildEntry.2.map (fun ab => fragOf ab.2)).count "│  " =
        (wTreeChildEntry.2.filter (fun ab => !ab.2)).length) :=
  C3_pfx_structure.2.1 [wTree] wTreeChildEntry (by decide)

/-- C4 (amended): the filter returns exactly the subsequence of entries
whose match target contains the lowercased and trimmed query (the source
trims the query before matching); it is a sublist of the input, so relative
order and all entry fields (prefixes included) are unchanged, and a query
that is empty after trimming (empty or whitespace-only) returns the full
list unchanged. -/
theorem C4_filter_subsequence :
    ∀ (l : List FlatNode) (q : String),
      applyFilterList l q = l.filter (fun n => nodeMatches (normalizeQuery q) n) ∧
      (applyFilterList l q).Sublist l ∧
      ((normalizeQuery q).isEmpty = true → applyFilterList l q = l) ∧
      (∀ n, n ∈ applyFilterList l q ↔ n ∈ l ∧
        strIncludes (matchText n) (trimStr (lowerStr q)) = true) := by
  intro l q
  refine ⟨applyFilterList_eq l q, applyFilterList_sublist l q, ?_, ?_⟩
  · intro h
    simp [applyFilterList, h]
  · intro n
    exact applyFilterList_mem l q n

/-- C4 witness: a query that is empty after trimming returns the list
unchanged. -/
theorem C4_witness :
    (normalizeQuery "  ").isEmpty = true ∧ applyFilterList [cexNodeAB] "  " = [cexNodeAB] :=
  ⟨by decide, (C4_filter_subsequence [cexNodeAB] "  ").2.2.1 (by decide)⟩

/-- C4 counterexample: with the query `ab ` (trailing blank) and an entry
whose match target is exactly `ab`, the filter keeps the entry although the
target does not contain the query itself as a (case-insensitive) substring —
the source matches against the trimmed query, not the query. -/
theorem C4_counterexample :
    applyFilterList [cexNodeAB] "ab " = [cexNodeAB] ∧
    strIncludes (matchText cexNodeAB) (lowerStr "ab ") = false := by decide

/-- C5 (confirmed): in the built forest the roots appear in descending order
of their sessions' modification time and the children of every node appear
in ascending order of their sessions' creation time; moreover the depth-0
entries of the flattening are exactly the forest's roots in forest order,
and within the flattening of any node the entries one level deeper are
exactly its children in order — so more recently modified roots are
flattened first and siblings are flattened oldest-created first. -/
theorem C5_root_and_child_order (sessions : List SessionWithParent) :
    (buildSessionTree sessions).Pairwise
      (fun a b => b.session.modified ≤ a.session.modified) ∧
    (∀ t ∈ nodesOfList (buildSessionTree sessions),
      t.children.Pairwise (fun a b => a.session.created ≤ b.session.created)) ∧
    ((flattenTree (buildSessionTree sessions)).filter
        (fun e => e.depth == 0)).map FlatNode.session =
      (buildSessionTree sessions).map SessionTreeNode.session ∧
    (∀ (t : SessionTreeNode) (d : Nat) (pp : List String) (b : Bool),
      ((flattenNode t d pp b).filter (fun e => e.depth == d + 1)).map FlatNode.session =
        t.children.map SessionTreeNode.session) := by
  refine ⟨buildSessionTree_roots_sorted sessions,
    buildSessionTree_children_sorted sessions, ?_, ?_⟩
  · unfold flattenTree
    exact flatten_sibling_sessions (buildSessionTree sessions) 0 _ 0 []
  · intro t d pp b
    rw [flattenNode_eq, List.filter_cons]
    have hhead : ((headEntry t d pp b).depth == d + 1) = false := by
      simp [headEntry]
    rw [hhead, if_neg (by simp)]
    exact flatten_sibling_sessions t.children 0 t.children.length (d + 1) _

/-- C5 witness: for the two concrete parentless sessions modified at 10 and
20, the forest lists the one modified at 20 first. -/
theorem C5_witness :
    (buildSessionTree [sesR1, sesR2]).Pairwise
      (fun a b => b.session.modified ≤ a.session.modified) ∧
    ((flattenTree (buildSessionTree [sesR1, sesR2])).filter
        (fun e => e.depth == 0)).map FlatNode.session =
      (buildSessionTree [sesR1, sesR2]).map SessionTreeNode.session :=
  ⟨(C5_root_and_child_order [sesR1, sesR2]).1,
    (C5_root_and_child_order [sesR1, sesR2]).2.2.1⟩

/-- A selector state with the selection inside the visible window. -/
def cexWinEntry : FlatNode :=
  { session :=
      { path := "/we", name := some "win", firstMessage := none, cwd := "/w",
        created := 0, modified := 0, parentSession := none },
    depth := 0, pfx := "", isLast := true, hasChildren := false }

def cexWinState : SelectorState :=
  { flatNodes := [cexWinEntry], query := "", filteredNodes := [cexWinEntry],
    selectedIndex := 0, scrollOffset := 0, maxVisibleLines := 5, searchMode := false }

/-- C6 (confirmed): from any state whose selected index lies in the visible
window, a single up or down move leaves the selected index inside the
window again, the scroll offset is unchanged whenever the moved selection
is still inside the old window, and in general the offset moves by the
minimum amount among all offsets whose window would contain the new
selection. -/
theorem C6_scroll_follows_selection (s : SelectorState)
    (h1 : s.scrollOffset ≤ s.selectedIndex)
    (h2 : s.selectedIndex < s.scrollOffset + s.maxVisibleLines) :
    ((handleBrowse s KeyIn.up).scrollOffset ≤ (handleBrowse s KeyIn.up).selectedIndex ∧
      (handleBrowse s KeyIn.up).selectedIndex <
        (handleBrowse s KeyIn.up).scrollOffset + (handleBrowse s KeyIn.up).maxVisibleLines ∧
      (s.scrollOffset ≤ (handleBrowse s KeyIn.up).selectedIndex →
        (handleBrowse s KeyIn.up).selectedIndex < s.scrollOffset + s.maxVisibleLines →
        (handleBrowse s KeyIn.up).scrollOffset = s.scrollOffset) ∧
      (∀ o : Int, o ≤ (handleBrowse s KeyIn.up).selectedIndex →
        (handleBrowse s KeyIn.up).selectedIndex < o + s.maxVisibleLines →
        ((handleBrowse s KeyIn.up).scrollOffset - s.scrollOffset).natAbs ≤
          (o - s.scrollOffset).natAbs)) ∧
    ((handleBrowse s KeyIn.down).scrollOffset ≤ (handleBrowse s KeyIn.down).selectedIndex ∧
      (handleBrowse s KeyIn.down).selectedIndex <
        (handleBrowse s KeyIn.down).scrollOffset + (handleBrowse s KeyIn.down).maxVisibleLines ∧
      (s.scrollOffset ≤ (handleBrowse s KeyIn.down).selectedIndex →
        (handleBrowse s KeyIn.down).selectedIndex < s.scrollOffset + s.maxVisibleLines →
        (handleBrowse s KeyIn.down).scrollOffset = s.scrollOffset) ∧
      (∀ o : Int, o ≤ (handleBrowse s KeyIn.down).selectedIndex →
        (handleBrowse s KeyIn.down).selectedIndex < o + s.maxVisibleLines →
        ((handleBrowse s KeyIn.down).scrollOffset - s.scrollOffset).natAbs ≤
          (o - s.scrollOffset).natAbs)) := by
  have hm : 0 < s.maxVisibleLines := by omega
  constructor
  · by_cases hc : s.selectedIndex > 0
    · have heq : handleBrowse s KeyIn.up =
          ensureVisibleS { s with selectedIndex := s.selectedIndex - 1 } := by
        simp [handleBrowse, hc]
      rw [heq]
      rcases ensureVisible_spec (s.selectedIndex - 1) s.scrollOffset s.maxVisibleLines hm with
        ⟨e1, e2, e3, e4⟩
      exact ⟨e1, e2, e3, e4⟩
    · have heq : handleBrowse s KeyIn.up = s := by
        simp [handleBrowse, hc]
      rw [heq]
      exact ⟨h1, h2, fun _ _ => rfl, fun o ho1 ho2 => by omega⟩
  · by_cases hc : s.selectedIndex < (s.filteredNodes.length : Int) - 1
    · have heq : handleBrowse s KeyIn.down =
          ensureVisibleS { s with selectedIndex := s.selectedIndex + 1 } := by
        simp [handleBrowse, hc]
      rw [heq]
      rcases ensureVisible_spec (s.selectedIndex + 1) s.scrollOffset s.maxVisibleLines hm with
        ⟨e1, e2, e3, e4⟩
      exact ⟨e1, e2, e3, e4⟩
    · have heq : handleBrowse s KeyIn.down = s := by
        simp [handleBrowse, hc]
      rw [heq]
      exact ⟨h1, h2, fun _ _ => rfl, fun o ho1 ho2 => by omega⟩

/-- C6 witness: a concrete in-window state stays in the window after an up
move. -/
theorem C6_witness :
    (cexWinState.scrollOffset ≤ cexWinState.selectedIndex ∧
      cexWinState.selectedIndex < cexWinState.scrollOffset + cexWinState.maxVisibleLines) ∧
    (handleBrowse cexWinState KeyIn.up).scrollOffset ≤
      (handleBrowse cexWinState KeyIn.up).selectedIndex :=
  ⟨⟨by decide, by decide⟩,
    (C6_scroll_follows_selection cexWinState (by decide) (by decide)).1.1⟩

/-- C7: the claim says `getSessionHeader` resolves for every record,
including an empty one. The embedding shows each handled event recovers
locally (parse failure, foreign header type and read errors all resolve
with an absent result), but an empty record — stream end with no line and
no error event — fires no handler at all, so the promise never settles
(last conjunct): the code diverges from the claim there. -/
theorem C7_header_read_recovery (parseLine : String → Option SessionHeader) :
    (∀ l, parseLine l = none →
      getSessionHeader parseLine (HeaderReadEvent.lineDelivered l) = some none) ∧
    (∀ l h, parseLine l = some h → h.typ ≠ "session" →
      getSessionHeader parseLine (HeaderReadEvent.lineDelivered l) = some none) ∧
    (∀ l h, parseLine l = some h → h.typ = "session" →
      getSessionHeader parseLine (HeaderReadEvent.lineDelivered l) =
        some (some h.parentSession)) ∧
    getSessionHeader parseLine HeaderReadEvent.readFailed = some none ∧
    getSessionHeader parseLine HeaderReadEvent.endedNoLine = none := by
  refine ⟨?_, ?_, ?_, rfl, rfl⟩
  · intro l h
    simp [getSessionHeader, h]
  · intro l hd h hne
    simp [getSessionHeader, h, hne]
  · intro l hd h he
    simp [getSessionHeader, h, he]

/-- C7 witness: with a parser that always fails, a delivered malformed line
resolves as no parent, while the empty-record event never resolves. -/
theorem C7_witness :
    getSessionHeader (fun _ => (none : Option SessionHeader))
        (HeaderReadEvent.lineDelivered "not json") = some none ∧
    getSessionHeader (fun _ => (none : Option SessionHeader))
        HeaderReadEvent.endedNoLine = none :=
  ⟨(C7_header_read_recovery (fun _ => none)).1 "not json" rfl,
    (C7_header_read_recovery (fun _ => none)).2.2.2.2⟩

/-- C8 (confirmed): for a non-empty input the notification sequence of
`loadSessionsWithParents` has strictly increasing loaded counts, every
notification carries the input length as total, the final notification is
`(total, total)`, and one result per input session is produced. Each header
read is modelled as resolving (see C7 for the one event that does not). -/
theorem C8_progress_notifications (headerOf : SessionInfo → Option (Option String))
    (sessions : List SessionInfo) (hne : sessions ≠ []) :
    (loadSessionsWithParents headerOf sessions).2.Pairwise (fun a b => a.1 < b.1) ∧
    (∀ p ∈ (loadSessionsWithParents headerOf sessions).2, p.2 = sessions.length) ∧
    (loadSessionsWithParents headerOf sessions).2.getLast? =
      some (sessions.length, sessions.length) ∧
    (loadSessionsWithParents headerOf sessions).1.length = sessions.length := by
  have hsnd : (loadSessionsWithParents headerOf sessions).2 =
      (List.range sessions.length).map (fun i => (0 + 1 + i, sessions.length)) :=
    loadLoop_snd headerOf sessions.length sessions 0
  refine ⟨?_, ?_, ?_, loadLoop_fst_length headerOf sessions.length sessions 0⟩
  · rw [hsnd, List.pairwise_map]
    refine List.Pairwise.imp ?_ (List.pairwise_lt_range _)
    intro a b hab
    omega
  · rw [hsnd]
    intro p hp
    rcases List.mem_map.mp hp with ⟨i, _, rfl⟩
    rfl
  · rw [hsnd]
    cases sessions with
    | nil => exact absurd rfl hne
    | cons a rest =>
      simp only [List.length_cons, List.range_succ, List.map_append, List.map_cons,
        List.map_nil]
      rw [List.getLast?_concat]
      have harith : 0 + 1 + rest.length = rest.length + 1 := by omega
      rw [harith]

def wInfoA : SessionInfo :=
  { path := "/ia", name := none, firstMessage := none, cwd := "/w",
    created := 0, modified := 0 }

def wInfoB : SessionInfo :=
  { path := "/ib", name := none, firstMessage := none, cwd := "/w",
    created := 1, modified := 1 }

/-- C8 witness: loading two concrete sessions ends with notification
`(2, 2)`. -/
theorem C8_witness :
    ([wInfoA, wInfoB] ≠ ([] : List SessionInfo)) ∧
    (loadSessionsWithParents (fun _ => some none) [wInfoA, wInfoB]).2.getLast? =
      some (2, 2) :=
  ⟨by decide,
    (C8_progress_notifications (fun _ => some none) [wInfoA, wInfoB] (by decide)).2.2.1⟩

/-- C9 (confirmed): the filter is idempotent — re-filtering an
already-filtered list with the same query returns it unchanged — and
filtering with the empty query is the identity. -/
theorem C9_filter_idempotent (l : List FlatNode) (q : String) :
    applyFilterList (applyFilterList l q) q = applyFilterList l q ∧
    applyFilterList l "" = l :=
  ⟨applyFilterList_idem l q, applyFilterList_empty_query l⟩

/-! Concrete run reaching `selectedIndex = -1` with a non-empty filtered
list (C10): open the filter, type a non-matching query, commit it, press
page-down on the empty list, reopen the filter and clear it. -/

def cexTreeSession : SessionWithParent :=
  { path := "/p", name := some "hello", firstMessage := none, cwd := "/w",
    created := 0, modified := 0, parentSession := none }

def cexTree10 : SessionTreeNode := SessionTreeNode.mk cexTreeSession [] 0

def cexS0 : SelectorState := mkSelector [cexTree10] 5 none

def cexS1 : SelectorState := handleBrowse cexS0 KeyIn.slash

def cexS2 : SelectorState := handleSearch cexS1 KeyIn.other "z"

def cexS3 : SelectorState := handleSearch cexS2 KeyIn.enter "z"

def cexS4 : SelectorState := handleBrowse cexS3 KeyIn.pageDown

def cexS5 : SelectorState := handleBrowse cexS4 KeyIn.slash

def cexS6 : SelectorState := handleSearch cexS5 KeyIn.other ""

/-- C10 (amended): after construction with a positive window size the
selector satisfies `SelInv`; `SelInv` is preserved by every input step; and
whenever the selected index is non-negative and the filtered list is
non-empty it indexes an existing entry (so commit refers to an existing
entry). `SelInv` bounds the selected index by `[-1, length - 1]` for a
non-empty filtered list — the index can actually be `-1`, see the
counterexample — rather than the claimed `[0, length - 1]`. -/
theorem C10_selected_index_bounds :
    (∀ (roots : List SessionTreeNode) (m : Int) (cp : Option String), 1 ≤ m →
      SelInv (mkSelector roots m cp)) ∧
    (∀ s t : SelectorState, SelInv s → SelStep s t → SelInv t) ∧
    (∀ s : SelectorState, SelInv s → 0 ≤ s.selectedIndex → 0 < s.filteredNodes.length →
      s.selectedIndex.toNat < s.filteredNodes.length) := by
  refine ⟨selInv_mk, fun s t h hst => selInv_step h hst, ?_⟩
  intro s hinv hge hlen
  rcases hinv with ⟨_, _, hhi⟩
  omega

/-- C10 witness: a freshly constructed selector over a one-node forest
satisfies the invariant. -/
theorem C10_witness : SelInv cexS0 :=
  C10_selected_index_bounds.1 [cexTree10] 5 none (by decide)

/-- C10 counterexample: the concrete six-step run ends in a state whose
filtered list is non-empty while the selected index is `-1` (the final step
is a legitimate search-mode input step), refuting the claimed
`[0, length - 1]` bound. -/
theorem C10_counterexample :
    cexS6.filteredNodes.length = 1 ∧ cexS6.selectedIndex = -1 ∧
    cexS5.searchMode = true ∧ SelStep cexS5 cexS6 := by
  refine ⟨by decide, by decide, by decide, ?_⟩
  exact SelStep.search cexS5 KeyIn.other "" (by decide)
